import Mathlib

/-!
# Verification of the code-surfer static analysis engine

Shallow embedding of the rule-based static analysis engine of the
code-surfer repository (TypeScript), together with proofs of the spec's
claims about it.

Embedded source files:
* `src/types.ts` — data model (`IssueSeverity`, `IssueCategory`, `Position`,
  `Range`, `AnalysisResult`, `AnalysisReport`, `Rule`, `AnalyzerOptions`);
* `src/analysisEngine.ts` — `AnalysisEngine` (`getEnabledRules`,
  `analyzeFile`, `parseCode`) and `PythonAnalyzer`
  (`analyzeFile`, `convertPythonIssue`);
* `src/rules/baseRule.ts` — `BaseRule.analyze`, `createResult`,
  `nodeToRange`, `getLanguageFromPath`;
* `src/rules/longFunctionRule.ts`, `src/rules/unusedVariableRule.ts`,
  `src/rules/asyncWithoutAwaitRule.ts` — the three concrete rules;
* `src/configurationManager.ts` — `shouldShowSeverity`.

External collaborators (the Babel parser/traverser, the Python subprocess,
VS Code configuration storage) are modelled at their interface boundary:
the parser is a parameter producing an abstract syntax tree `Node`, the
Python analyzer invocation is a parameter of type
`Except String PythonAnalysisResult`, configuration reads are parameters.
JavaScript numbers are modelled as `Int` (all arithmetic in the embedded
code is integer arithmetic on `loc` line/column values).

The only nondeterminism in the engine is `Date.now()` / `Math.random()`
used for `AnalysisResult.id` (in `BaseRule.createResult`) and
`new Date()` used for the report timestamp; these are modelled as an
entropy oracle `gen : Nat → String` (indexed by emission order, matching
the creation order of results) and an explicit `timestamp` argument.
-/

/-! ## Data model (src/types.ts) -/

/-- `IssueSeverity` enum from src/types.ts. -/
inductive IssueSeverity where
  | info
  | warning
  | error
deriving DecidableEq, Repr

/-- `IssueCategory` enum from src/types.ts. -/
inductive IssueCategory where
  | potentialIssue
  | codeSmell
  | suggestion
deriving DecidableEq, Repr

/-- `Position` from src/types.ts (line / character, JS numbers as `Int`). -/
structure Position where
  line : Int
  character : Int
deriving DecidableEq, Repr

/-- `Range` from src/types.ts. -/
structure Range where
  start : Position
  stop : Position
deriving DecidableEq, Repr

/-- `AnalysisResult` from src/types.ts — one Finding. -/
structure AnalysisResult where
  id : String
  message : String
  severity : IssueSeverity
  category : IssueCategory
  range : Range
  ruleId : String
  suggestion : Option String
deriving DecidableEq, Repr

/-- `AnalysisReport` from src/types.ts (the `Date` timestamp modelled as
`Int` milliseconds). -/
structure AnalysisReport where
  filePath : String
  results : List AnalysisResult
  timestamp : Int
  language : String
deriving DecidableEq, Repr

/-- `AnalyzerOptions` from src/types.ts; the `language` union type is
modelled as `String`. -/
structure AnalyzerOptions where
  enabledRules : List String
  language : String
deriving DecidableEq, Repr

/-! ## Babel AST interface

The `@babel/parser` / `@babel/traverse` libraries are external; the engine
consumes their trees through: node kinds dispatched by the visitor
(`Function`, `AwaitExpression`, `VariableDeclarator`, `Identifier`,
`Program`), the `async` flag and `id` of function nodes, the `id` of a
declarator when it is an `Identifier`, `path.isReferencedIdentifier()` on
identifier occurrences (a predicate of the occurrence's syntactic
position, recorded on the node), `path.getFunctionParent()` (the nearest
enclosing function, recovered from the tree structure during traversal),
and `node.loc` (1-based lines, 0-based columns). -/

/-- Source location of a node (`node.loc`): 1-based lines, 0-based
columns, as produced by Babel. -/
structure Loc where
  startLine : Int
  startCol : Int
  endLine : Int
  endCol : Int
deriving DecidableEq, Repr

/-- The variants of `t.Function` distinguished by
`getFunctionName` (`t.isFunctionDeclaration` with its optional `id`,
`t.isFunctionExpression`, `t.isArrowFunctionExpression`, and the
remaining function kinds such as object/class methods). -/
inductive FunctionKind where
  | functionDeclaration (id : Option String)
  | functionExpression
  | arrowFunctionExpression
  | otherFunction
deriving DecidableEq, Repr

/-- Node kinds, restricted to those the three rules' visitors dispatch
on; every other Babel node kind is `other`.  An `identifier` node records
its name and the value of `path.isReferencedIdentifier()` at its
occurrence; a `variableDeclarator` records `node.id`'s name and `loc`
when `node.id` is an `Identifier` (the identifier also appears among the
children, as Babel visits it). -/
inductive NodeKind where
  | program
  | function (fk : FunctionKind) (isAsync : Bool)
  | awaitExpression
  | variableDeclarator (declId : Option (String × Option Loc))
  | identifier (name : String) (isReferenced : Bool)
  | other
deriving DecidableEq, Repr

/-- A Babel AST node: kind, optional `loc`, children in source order
(Babel's traversal visits children in source order, pre-order). -/
inductive Node where
  | mk (kind : NodeKind) (loc : Option Loc) (children : List Node)
deriving Repr

/-- The kind of a node. -/
def Node.kind : Node → NodeKind
  | .mk k _ _ => k

/-- The `loc` of a node. -/
def Node.loc : Node → Option Loc
  | .mk _ l _ => l

/-- The children of a node. -/
def Node.children : Node → List Node
  | .mk _ _ cs => cs

/-- Does `t.isFunction` hold for this kind?  (`path.getFunctionParent()`
returns the nearest ancestor whose node satisfies this.) -/
def NodeKind.isFunction : NodeKind → Bool
  | .function _ _ => true
  | _ => false

mutual
/-- The pre-order (parent before children, siblings in source order)
node sequence of a tree — the order in which `@babel/traverse` fires
`enter` visitors. -/
def preorder : Node → List Node
  | .mk k l cs => .mk k l cs :: preorderList cs

/-- Pre-order sequence of a forest. -/
def preorderList : List Node → List Node
  | [] => []
  | c :: cs => preorder c ++ preorderList cs
end

/-! ## BaseRule helpers (src/rules/baseRule.ts) -/

/-- `BaseRule.nodeToRange`: converts a node's `loc` to a 0-based `Range`
(`(node.loc?.start.line ?? 1) - 1` etc.).  Only `node.loc` is read, so
the embedding takes the `loc` directly; the unused `lines` parameter of
the source is dropped. -/
def nodeToRange (loc : Option Loc) : Range :=
  match loc with
  | some l =>
      { start := { line := l.startLine - 1, character := l.startCol }
        stop := { line := l.endLine - 1, character := l.endCol } }
  | none =>
      { start := { line := 0, character := 0 }
        stop := { line := 0, character := 0 } }

/-- `BaseRule.createResult`: builds a Finding.  `this.id`,
`this.severity`, `this.category` are passed explicitly; the node argument
is represented by its `loc` (the only field `createResult` reads, via
`nodeToRange`); `entropy` stands for the
`Date.now()`-and-`Math.random()` suffix of the generated `id`
(`` `${this.id}-${Date.now()}-${Math.random()}` ``). -/
def createResult (ruleId : String) (sev : IssueSeverity) (cat : IssueCategory)
    (message : String) (loc : Option Loc) (suggestion : Option String)
    (entropy : String) : AnalysisResult :=
  { id := ruleId ++ "-" ++ entropy
    message := message
    severity := sev
    category := cat
    range := nodeToRange loc
    ruleId := ruleId
    suggestion := suggestion }

/-- `BaseRule.getLanguageFromPath`: maps a file extension to a language
id. -/
def getLanguageFromPath (filePath : String) : String :=
  let ext := (filePath.splitOn ".").getLast? |>.map (·.toLower)
  match ext with
  | some "ts" => "typescript"
  | some "tsx" => "typescriptreact"
  | some "jsx" => "javascriptreact"
  | _ => "javascript"

/-- Stamp creation-order ids onto a list of findings produced without
entropy: the `n`-th created result receives entropy `gen n`.  In the
source each result's `id` is assigned at `createResult` time from the
global `Date.now()` / `Math.random()` stream; since results are appended
in creation order, indexing the oracle by list position is the same
model. -/
def stampIds (gen : Nat → String) (rs : List AnalysisResult) : List AnalysisResult :=
  rs.enum.map fun p => { p.2 with id := p.2.ruleId ++ "-" ++ gen p.1 }

/-- Erase the `id` field of a Finding (for equality up to `id`). -/
def eraseId (r : AnalysisResult) : AnalysisResult :=
  { r with id := "" }

/-! ## LongFunctionRule (src/rules/longFunctionRule.ts) -/

/-- `getFunctionName` (shared by longFunctionRule and
asyncWithoutAwaitRule): declared name, `<anonymous>` for function/arrow
expressions, `<function>` otherwise. -/
def getFunctionName (fk : FunctionKind) : String :=
  match fk with
  | .functionDeclaration (some n) => n
  | .functionExpression => "<anonymous>"
  | .arrowFunctionExpression => "<anonymous>"
  | _ => "<function>"

/-- `path.node.loc?.start.line ?? 0` -/
def locStartLine (loc : Option Loc) : Int :=
  match loc with
  | some l => l.startLine
  | none => 0

/-- `path.node.loc?.end.line ?? 0` -/
def locEndLine (loc : Option Loc) : Int :=
  match loc with
  | some l => l.endLine
  | none => 0

/-- The inclusive line count `endLine - startLine + 1` computed by the
long-function rule's `Function` visitor. -/
def functionLength (n : Node) : Int :=
  locEndLine n.loc - locStartLine n.loc + 1

/-- `MAX_LINES = 50` of `LongFunctionRule`. -/
def MAX_LINES : Int := 50

/-- Does the long-function rule's `Function` visitor fire and flag this
node?  (It fires on function nodes and flags when
`functionLength > MAX_LINES`.) -/
def longFunctionFlags (n : Node) : Bool :=
  n.kind.isFunction && functionLength n > MAX_LINES

/-- The function kind of a node (defaulting arbitrarily for
non-functions; only applied to function nodes). -/
def Node.funcKind : Node → FunctionKind
  | .mk (.function fk _) _ _ => fk
  | _ => FunctionKind.otherFunction

/-- Message emitted by `LongFunctionRule`. -/
def longFunctionMessage (n : Node) : String :=
  "Function '" ++ getFunctionName n.funcKind ++ "' is " ++
    toString (functionLength n) ++ " lines long (max recommended: " ++
    toString MAX_LINES ++ ")"

/-- `LongFunctionRule.getVisitor` run over a parsed tree: the `Function`
visitor fires at every function node in pre-order and immediately emits
a Finding when the inclusive line count exceeds `MAX_LINES`. -/
def longFunctionRun (gen : Nat → String) (t : Node) : List AnalysisResult :=
  stampIds gen <|
    ((preorder t).filter longFunctionFlags).map fun n =>
      createResult "long-function" .info .codeSmell (longFunctionMessage n)
        n.loc
        (some "Consider breaking this function into smaller, more focused functions")
        ""

/-! ## UnusedVariableRule (src/rules/unusedVariableRule.ts) -/

/-- JS `Map.set` on an association list in insertion order: updating an
existing key keeps its position, a new key is appended. -/
def mapSet (m : List (String × Option Loc)) (k : String) (v : Option Loc) :
    List (String × Option Loc) :=
  if m.any (fun p => p.1 == k) then
    m.map (fun p => if p.1 == k then (k, v) else p)
  else m ++ [(k, v)]

/-- State accumulated by `UnusedVariableRule.getVisitor`'s closures:
`declaredVars` (a JS `Map` in insertion order, keyed by name, holding the
declarator's `id` node — represented by its `loc`) and `usedVars` (a JS
`Set` of names; only membership is consumed, insertion order kept for
fidelity). -/
structure UnusedState where
  declaredVars : List (String × Option Loc)
  usedVars : List String
deriving Repr

/-- One `enter` step of the unused-variable visitor: the
`VariableDeclarator` visitor records `node.id.name` when `node.id` is an
`Identifier`; the `Identifier` visitor adds the name to `usedVars` when
`path.isReferencedIdentifier()`. -/
def unusedStep (st : UnusedState) (n : Node) : UnusedState :=
  match n.kind with
  | .variableDeclarator (some (name, idLoc)) =>
      { st with declaredVars := mapSet st.declaredVars name idLoc }
  | .identifier name true =>
      if st.usedVars.contains name then st
      else { st with usedVars := st.usedVars ++ [name] }
  | _ => st

/-- The declared-but-unused `(name, id-loc)` pairs after the full
traversal, in `declaredVars` insertion order — what the `Program.exit`
finalizer iterates over and flags. -/
def unusedCore (t : Node) : List (String × Option Loc) :=
  let st := (preorder t).foldl unusedStep ⟨[], []⟩
  st.declaredVars.filter (fun p => !st.usedVars.contains p.1)

/-- Message emitted by `UnusedVariableRule`. -/
def unusedVariableMessage (name : String) : String :=
  "Variable '" ++ name ++ "' is declared but never used"

/-- Suggestion emitted by `UnusedVariableRule`. -/
def unusedVariableSuggestion (name : String) : String :=
  "Consider removing unused variable '" ++ name ++ "' or use it in your code"

/-- `UnusedVariableRule.getVisitor` run over a parsed tree: accumulate
declarations and referenced identifiers during the pre-order walk, then
emit one Finding per never-used declared name in the `Program.exit`
finalizer (which fires once, when the root `Program` is exited, i.e.
after the full traversal), anchored at the declarator's `id` node. -/
def unusedVariableRun (gen : Nat → String) (t : Node) : List AnalysisResult :=
  stampIds gen <|
    (unusedCore t).map fun p =>
      createResult "unused-variable" .warning .codeSmell
        (unusedVariableMessage p.1) p.2
        (some (unusedVariableSuggestion p.1)) ""

/-! ## AsyncWithoutAwaitRule (src/rules/asyncWithoutAwaitRule.ts) -/

/-- State of `AsyncWithoutAwaitRule.getVisitor`'s closures:
`asyncFunctions` is a JS `Map` keyed by the function's `NodePath`
(identity), modelled by the node's pre-order index; the stored
`{hasAwait}` record is split into the insertion-ordered key list `funcs`
(with the node kept for the finalizer) and the set `awaited` of indices
whose flag was set to true. -/
structure AsyncState where
  funcs : List (Nat × Node)
  awaited : List Nat
deriving Repr

mutual
/-- The pre-order walk of the async-without-await visitors.  `ctx` is the
pre-order index of the nearest enclosing function node — exactly what
`path.getFunctionParent()` returns for nodes below it (Babel's
`getFunctionParent` finds the nearest ancestor with `t.isFunction`);
`idx` is the pre-order index of `n`.  The `Function` visitor registers
async functions (`if (path.node.async) asyncFunctions.set(path, {hasAwait:false})`);
the `AwaitExpression` visitor looks up `getFunctionParent()` in the map
and sets its flag (`if (parent && asyncFunctions.has(parent)) ... hasAwait = true`). -/
def asyncWalk (n : Node) (ctx : Option Nat) (idx : Nat) (st : AsyncState) :
    AsyncState × Nat :=
  match n with
  | .mk k _ cs =>
      let st1 : AsyncState :=
        match k with
        | .function _ true => { st with funcs := st.funcs ++ [(idx, n)] }
        | .awaitExpression =>
            match ctx with
            | some j =>
                if st.funcs.any (fun p => p.1 == j) then
                  { st with awaited := st.awaited ++ [j] }
                else st
            | none => st
        | _ => st
      let ctx' := if k.isFunction then some idx else ctx
      asyncWalkList cs ctx' (idx + 1) st1

/-- `asyncWalk` over a forest of siblings (shared `ctx`, threaded index
counter and state). -/
def asyncWalkList (ns : List Node) (ctx : Option Nat) (idx : Nat)
    (st : AsyncState) : AsyncState × Nat :=
  match ns with
  | [] => (st, idx)
  | c :: cs =>
      let r := asyncWalk c ctx idx st
      asyncWalkList cs ctx r.2 r.1
end

/-- The `(index, node)` pairs of async functions whose `hasAwait` flag
remained false after the full traversal — what the `Program.exit`
finalizer flags (its `t.isFunction(funcPath.node)` guard holds for every
entry, since only function nodes are inserted). -/
def asyncCore (t : Node) : List (Nat × Node) :=
  let st := (asyncWalk t none 0 ⟨[], []⟩).1
  st.funcs.filter (fun p => !st.awaited.contains p.1)

/-- Message emitted by `AsyncWithoutAwaitRule`. -/
def asyncWithoutAwaitMessage (n : Node) : String :=
  "Async function '" ++ getFunctionName n.funcKind ++
    "' contains no await expressions"

/-- `AsyncWithoutAwaitRule.getVisitor` run over a parsed tree: register
every async function on entry, mark its flag when an `await` whose
`getFunctionParent()` is that function is met, and in the `Program.exit`
finalizer emit one Finding per still-unmarked async function, anchored at
the function node's full range. -/
def asyncWithoutAwaitRun (gen : Nat → String) (t : Node) : List AnalysisResult :=
  stampIds gen <|
    (asyncCore t).map fun p =>
      createResult "async-without-await" .warning .potentialIssue
        (asyncWithoutAwaitMessage p.2) p.2.loc
        (some "Consider making this function synchronous or add await expressions")
        ""

/-! ## Engine (src/analysisEngine.ts) -/

/-- `AnalysisEngine.parseCode`: selects Babel plugins from the language
id and calls `parser.parse`, returning `null` (here `none`) on a parse
exception instead of throwing.  The external `parser.parse` is the
parameter `babelParse` (source text and plugin list to either a tree or a
thrown `ParseError`). -/
def parseCode (babelParse : String → List String → Except String Node)
    (code : String) (language : String) : Option Node :=
  let isTypeScript := language == "typescript" || language == "typescriptreact"
  let isReact := language == "javascriptreact" || language == "typescriptreact"
  let plugins :=
    (if isTypeScript then ["typescript"] else []) ++
    (if isReact then ["jsx"] else []) ++
    ["decorators-legacy", "classProperties", "objectRestSpread",
     "functionBind", "exportDefaultFrom", "exportNamespaceFrom",
     "dynamicImport", "nullishCoalescingOperator", "optionalChaining"]
  match babelParse code plugins with
  | .ok ast => some ast
  | .error _ => none

/-- The `Rule` interface from src/types.ts: identity fields plus
`analyze(code, filePath)`.  A rule body that throws is modelled by
`Except`: `.error` is a thrown exception (caught by the engine),
`.ok rs` a normal return. -/
structure Rule where
  id : String
  name : String
  description : String
  category : IssueCategory
  severity : IssueSeverity
  enabled : Bool
  analyze : String → String → Except String (List AnalysisResult)

/-- `BaseRule.analyze`: parse the file (language derived from the file
path), return `[]` when the parse result is `null`, otherwise traverse
with the rule's visitor (`run`). -/
def baseRuleAnalyze (babelParse : String → List String → Except String Node)
    (run : Node → List AnalysisResult)
    (code : String) (filePath : String) : List AnalysisResult :=
  match parseCode babelParse code (getLanguageFromPath filePath) with
  | none => []
  | some ast => run ast

/-- `UnusedVariableRule` as a registered `Rule` instance. -/
def unusedVariableRule (babelParse : String → List String → Except String Node)
    (gen : Nat → String) : Rule :=
  { id := "unused-variable"
    name := "Unused Variable"
    description := "Detects variables that are declared but never used"
    category := .codeSmell
    severity := .warning
    enabled := true
    analyze := fun code filePath =>
      .ok (baseRuleAnalyze babelParse (unusedVariableRun gen) code filePath) }

/-- `AsyncWithoutAwaitRule` as a registered `Rule` instance. -/
def asyncWithoutAwaitRule (babelParse : String → List String → Except String Node)
    (gen : Nat → String) : Rule :=
  { id := "async-without-await"
    name := "Async Without Await"
    description := "Detects async functions that contain no await expressions"
    category := .potentialIssue
    severity := .warning
    enabled := true
    analyze := fun code filePath =>
      .ok (baseRuleAnalyze babelParse (asyncWithoutAwaitRun gen) code filePath) }

/-- `LongFunctionRule` as a registered `Rule` instance. -/
def longFunctionRule (babelParse : String → List String → Except String Node)
    (gen : Nat → String) : Rule :=
  { id := "long-function"
    name := "Long Function"
    description := "Detects functions that are too long and might benefit from refactoring"
    category := .codeSmell
    severity := .info
    enabled := true
    analyze := fun code filePath =>
      .ok (baseRuleAnalyze babelParse (longFunctionRun gen) code filePath) }

/-- `AnalysisEngine.getEnabledRules`: registered rules (the engine's
`Map` in registration order) filtered to the enabled ones, intersected
with the caller's allow-list unless it is empty. -/
def getEnabledRules (rules : List Rule) (options : AnalyzerOptions) : List Rule :=
  rules.filter fun rule =>
    rule.enabled &&
      (options.enabledRules.isEmpty || options.enabledRules.contains rule.id)

/-- `AnalysisEngine.analyzeFile`: run each enabled rule in order, pushing
its results; a rule that throws is caught (`try/catch` per rule) and
contributes nothing; wrap in a report with the caller's language and the
current time (`now`). -/
def analyzeFile (rules : List Rule) (code : String) (filePath : String)
    (options : AnalyzerOptions) (now : Int) : AnalysisReport :=
  let results :=
    (getEnabledRules rules options).flatMap fun rule =>
      match rule.analyze code filePath with
      | .ok ruleResults => ruleResults
      | .error _ => []
  { filePath := filePath
    results := results
    timestamp := now
    language := options.language }

/-- The engine with the three rules installed by
`RuleRegistry.registerAllRules`, in registration order. -/
def jsRules (babelParse : String → List String → Except String Node)
    (gen : Nat → String) : List Rule :=
  [unusedVariableRule babelParse gen,
   asyncWithoutAwaitRule babelParse gen,
   longFunctionRule babelParse gen]

/-- `analyzeFile` of the engine holding the three registered rules. -/
def analyzeFileJS (babelParse : String → List String → Except String Node)
    (gen : Nat → String) (code : String) (filePath : String)
    (options : AnalyzerOptions) (now : Int) : AnalysisReport :=
  analyzeFile (jsRules babelParse gen) code filePath options now

/-! ## PythonAnalyzer (src/analysisEngine.ts, python analyzer part) -/

/-- `PythonIssue` from src/python/pythonTypes.ts (string unions as
`String`, the JSON `line` number as `Int`). -/
structure PythonIssue where
  type : String
  severity : String
  message : String
  line : Int
  rule : String
deriving DecidableEq, Repr

/-- `PythonAnalysisResult` from src/python/pythonTypes.ts (the fields the
analyzer reads: `success`, optional `issues`, optional `message`). -/
structure PythonAnalysisResult where
  success : Bool
  issues : Option (List PythonIssue)
  message : Option String
deriving DecidableEq, Repr

/-- `PythonAnalyzer.convertPythonIssue`: map severity and issue-type
strings to the enums (with `info` / `suggestion` defaults) and span the
whole reported line, column 0 to the column-100 sentinel. -/
def convertPythonIssue (pythonIssue : PythonIssue) : AnalysisResult :=
  let severity : IssueSeverity :=
    match pythonIssue.severity with
    | "error" => .error
    | "warning" => .warning
    | _ => .info
  let category : IssueCategory :=
    match pythonIssue.type with
    | "potential_issue" => .potentialIssue
    | "code_smell" => .codeSmell
    | _ => .suggestion
  { id := pythonIssue.rule ++ "_" ++ toString pythonIssue.line
    message := pythonIssue.message
    severity := severity
    category := category
    range :=
      { start := { line := pythonIssue.line, character := 0 }
        stop := { line := pythonIssue.line, character := 100 } }
    ruleId := pythonIssue.rule
    suggestion := none }

/-- The outcome of `runPythonAnalyzer` at the out-of-process boundary:
`.ok` is a resolved `PythonAnalysisResult` (parsed JSON), `.error` a
rejected promise (process error or unparsable output), whose message the
`catch` block reads. -/
abbrev PythonRunOutcome := Except String PythonAnalysisResult

/-- JavaScript `||` on an optional string: `undefined` and the empty
string are both falsy, so either falls back to the default. -/
def jsStringOr (s : Option String) (d : String) : String :=
  match s with
  | some m => if m == "" then d else m
  | none => d

/-- `PythonAnalyzer.analyzeFile`: a rejected analyzer run is caught and
becomes the single synthetic `analysis_error` Finding; a resolved run
with `success: false` becomes the single synthetic `syntax_error`
Finding; a successful run maps each digest issue through
`convertPythonIssue`. -/
def pythonAnalyzeFile (outcome : PythonRunOutcome) (filePath : String)
    (now : Int) : AnalysisReport :=
  match outcome with
  | .error e =>
      { filePath := filePath
        language := "python"
        results :=
          [{ id := "analysis_error"
             message := "Analysis failed: " ++ e
             severity := .error
             category := .potentialIssue
             range :=
               { start := { line := 1, character := 0 }
                 stop := { line := 1, character := 0 } }
             ruleId := "analysis_error"
             suggestion := none }]
        timestamp := now }
  | .ok pythonResult =>
      if !pythonResult.success then
        { filePath := filePath
          language := "python"
          results :=
            [{ id := "syntax_error"
               message := jsStringOr pythonResult.message "Failed to parse Python file"
               severity := .error
               category := .potentialIssue
               range :=
                 { start := { line := 1, character := 0 }
                   stop := { line := 1, character := 0 } }
               ruleId := "syntax_error"
               suggestion := none }]
          timestamp := now }
      else
        { filePath := filePath
          language := "python"
          results := (pythonResult.issues.getD []).map convertPythonIssue
          timestamp := now }

/-! ## Configuration (src/configurationManager.ts) and the filter -/

/-- `RuleConfig` from src/configurationManager.ts (the fields the filter
reads; rule-specific parameters are not consumed by the filter). -/
structure RuleConfig where
  enabled : Bool
  severity : String
deriving DecidableEq, Repr

/-- The severity key strings used in `codeSurfer.severity.*` settings
(`IssueSeverity`'s string values). -/
def severityKey : IssueSeverity → String
  | .info => "info"
  | .warning => "warning"
  | .error => "error"

/-- `ConfigurationManager.shouldShowSeverity`: reads
`codeSurfer.severity.<severity>` with default `true`; the VS Code
settings store is the parameter `cfgGet`. -/
def shouldShowSeverity (cfgGet : String → Option Bool) (severity : String) : Bool :=
  (cfgGet ("severity." ++ severity)).getD true

/-- `ConfigurationManager.getEnabledRules`: the rule ids of a resolved
per-language rule-config set whose entry is enabled, in the set's key
order (the resolved set is the parameter `ruleConfig`, as an
insertion-ordered association list like a JS object). -/
def configGetEnabledRules (ruleConfig : List (String × RuleConfig)) : List String :=
  (ruleConfig.filter fun p => p.2.enabled).map (·.1)

/-- Modelled from the spec: the §4.5 configuration filter
`filter(findings, language, resolvedConfig)`.  No single function in the
source composes the two configuration predicates — per-rule enablement
(`ConfigurationManager.getEnabledRules`, via the engine's allow-list) and
per-severity visibility (`ConfigurationManager.shouldShowSeverity`) — so
the filter is modelled faithfully to the spec's words: drop a Finding iff
its `ruleId` has no entry in the language's resolved config, or the entry
is disabled, or its severity is globally suppressed; keep survivors in
order, never mutating the input. -/
def configFilter (findings : List AnalysisResult) (language : String)
    (resolvedConfig : String → String → Option RuleConfig)
    (cfgGet : String → Option Bool) : List AnalysisResult :=
  findings.filter fun finding =>
    match resolvedConfig language finding.ruleId with
    | none => false
    | some entry =>
        entry.enabled && shouldShowSeverity cfgGet (severityKey finding.severity)

/-! ## Concrete example trees

Babel parse trees of the spec's example snippets, written out as concrete
`Node` values (node kinds outside the visitors' dispatch set are
`other`). -/

/-- Parse tree of `async function f(){ return 1; }`: an async function
declaration `f` whose body holds a return statement and no await. -/
def exampleAsyncF : Node :=
  .mk .program (some ⟨1, 0, 1, 30⟩)
    [.mk (.function (.functionDeclaration (some "f")) true) (some ⟨1, 0, 1, 30⟩)
      [.mk (.identifier "f" false) (some ⟨1, 15, 1, 16⟩) [],
       .mk .other (some ⟨1, 18, 1, 30⟩)
         [.mk .other (some ⟨1, 20, 1, 29⟩)
           [.mk .other (some ⟨1, 27, 1, 28⟩) []]]]]

/-- Parse tree of `async function g(){ await h(); }`: an async function
declaration `g` whose body holds the expression statement `await h();`. -/
def exampleAsyncG : Node :=
  .mk .program (some ⟨1, 0, 1, 32⟩)
    [.mk (.function (.functionDeclaration (some "g")) true) (some ⟨1, 0, 1, 32⟩)
      [.mk (.identifier "g" false) (some ⟨1, 15, 1, 16⟩) [],
       .mk .other (some ⟨1, 18, 1, 32⟩)
         [.mk .other (some ⟨1, 20, 1, 30⟩)
           [.mk .awaitExpression (some ⟨1, 20, 1, 29⟩)
             [.mk .other (some ⟨1, 26, 1, 29⟩)
               [.mk (.identifier "h" true) (some ⟨1, 26, 1, 27⟩) []]]]]]]

/-- Parse tree of
`const unusedVar = 'x'; function f(){ const used='y'; console.log(used); }`:
a declarator binding `unusedVar` (never read) and a function `f` whose
body binds `used` and reads it inside `console.log(used)`. -/
def exampleUnused : Node :=
  .mk .program (some ⟨1, 0, 1, 74⟩)
    [.mk .other (some ⟨1, 0, 1, 23⟩)
      [.mk (.variableDeclarator (some ("unusedVar", some ⟨1, 6, 1, 15⟩)))
         (some ⟨1, 6, 1, 21⟩)
         [.mk (.identifier "unusedVar" false) (some ⟨1, 6, 1, 15⟩) [],
          .mk .other (some ⟨1, 18, 1, 21⟩) []]],
     .mk (.function (.functionDeclaration (some "f")) false) (some ⟨1, 24, 1, 74⟩)
       [.mk (.identifier "f" false) (some ⟨1, 33, 1, 34⟩) [],
        .mk .other (some ⟨1, 36, 1, 74⟩)
          [.mk .other (some ⟨1, 38, 1, 53⟩)
            [.mk (.variableDeclarator (some ("used", some ⟨1, 44, 1, 48⟩)))
               (some ⟨1, 44, 1, 52⟩)
               [.mk (.identifier "used" false) (some ⟨1, 44, 1, 48⟩) [],
                .mk .other (some ⟨1, 49, 1, 52⟩) []]],
           .mk .other (some ⟨1, 54, 1, 72⟩)
             [.mk .other (some ⟨1, 54, 1, 71⟩)
               [.mk .other (some ⟨1, 54, 1, 65⟩)
                 [.mk (.identifier "console" true) (some ⟨1, 54, 1, 61⟩) [],
                  .mk (.identifier "log" false) (some ⟨1, 62, 1, 65⟩) []],
                .mk (.identifier "used" true) (some ⟨1, 66, 1, 70⟩) []]]]]]

/-- Parse tree of a file whose single function declaration `f` spans
exactly 50 lines (lines 1–50 inclusive). -/
def exampleFunc50 : Node :=
  .mk .program (some ⟨1, 0, 50, 1⟩)
    [.mk (.function (.functionDeclaration (some "f")) false) (some ⟨1, 0, 50, 1⟩)
      [.mk (.identifier "f" false) (some ⟨1, 9, 1, 10⟩) [],
       .mk .other (some ⟨1, 13, 50, 1⟩) []]]

/-- Parse tree of a file whose single function declaration `f` spans
exactly 51 lines (lines 1–51 inclusive). -/
def exampleFunc51 : Node :=
  .mk .program (some ⟨1, 0, 51, 1⟩)
    [.mk (.function (.functionDeclaration (some "f")) false) (some ⟨1, 0, 51, 1⟩)
      [.mk (.identifier "f" false) (some ⟨1, 9, 1, 10⟩) [],
       .mk .other (some ⟨1, 13, 51, 1⟩) []]]

/-! ## Helper lemmas -/

/-- Stamping ids does not change anything except the `id` field. -/
theorem stampIds_map_eraseId (gen : Nat → String) (rs : List AnalysisResult) :
    (stampIds gen rs).map eraseId = rs.map eraseId := by
  unfold stampIds
  rw [List.map_map]
  have h : (eraseId ∘ fun p : Nat × AnalysisResult =>
      { p.2 with id := p.2.ruleId ++ "-" ++ gen p.1 }) = (eraseId ∘ Prod.snd) := by
    funext p
    rfl
  rw [h, ← List.map_map, List.enum_map_snd]

/-- Stamping ids preserves the `ruleId` of every finding, positionally. -/
theorem stampIds_map_ruleId (gen : Nat → String) (rs : List AnalysisResult) :
    (stampIds gen rs).map AnalysisResult.ruleId = rs.map AnalysisResult.ruleId := by
  unfold stampIds
  rw [List.map_map]
  have h : (AnalysisResult.ruleId ∘ fun p : Nat × AnalysisResult =>
      { p.2 with id := p.2.ruleId ++ "-" ++ gen p.1 })
      = (AnalysisResult.ruleId ∘ Prod.snd) := by
    funext p
    rfl
  rw [h, ← List.map_map, List.enum_map_snd]

/-- Every finding of the unused-variable rule has
`ruleId = "unused-variable"`. -/
theorem unusedVariableRun_ruleId (gen : Nat → String) (t : Node) :
    ∀ r ∈ unusedVariableRun gen t, r.ruleId = "unused-variable" := by
  intro r hr
  have : r.ruleId ∈ (unusedVariableRun gen t).map AnalysisResult.ruleId :=
    List.mem_map_of_mem _ hr
  rw [unusedVariableRun, stampIds_map_ruleId, List.map_map] at this
  simp only [List.mem_map] at this
  obtain ⟨p, _, hp⟩ := this
  simpa [createResult, Function.comp] using hp.symm

/-- Every finding of the async-without-await rule has
`ruleId = "async-without-await"`. -/
theorem asyncWithoutAwaitRun_ruleId (gen : Nat → String) (t : Node) :
    ∀ r ∈ asyncWithoutAwaitRun gen t, r.ruleId = "async-without-await" := by
  intro r hr
  have : r.ruleId ∈ (asyncWithoutAwaitRun gen t).map AnalysisResult.ruleId :=
    List.mem_map_of_mem _ hr
  rw [asyncWithoutAwaitRun, stampIds_map_ruleId, List.map_map] at this
  simp only [List.mem_map] at this
  obtain ⟨p, _, hp⟩ := this
  simpa [createResult, Function.comp] using hp.symm

/-! ## C9 — configuration filter idempotence -/

/-- C9: the configuration filter is idempotent: filtering an already
filtered finding list again, with the same language and the same resolved
configuration, changes nothing; the filter never mutates its input (it is
a pure `List.filter`) and keeps survivors in their relative order. -/
theorem configFilter_idempotent (X : List AnalysisResult) (lang : String)
    (resolvedConfig : String → String → Option RuleConfig)
    (cfgGet : String → Option Bool) :
    configFilter (configFilter X lang resolvedConfig cfgGet) lang resolvedConfig cfgGet
      = configFilter X lang resolvedConfig cfgGet := by
  simp only [configFilter, List.filter_filter]
  apply List.filter_congr
  intro r _
  cases h : resolvedConfig lang r.ruleId <;> simp [h, Bool.and_self]

/-! ## C5 — long-function threshold -/

/-- C5: the long-function rule computes the inclusive line count
`endLine - startLine + 1` for every function node and emits a Finding
exactly when that count strictly exceeds the threshold 50; a 50-line
function is not flagged, a 51-line function is flagged, and the message
carries the computed length and the threshold. -/
theorem longFunction_threshold_boundary :
    (∀ gen t, longFunctionRun gen t =
      stampIds gen
        (((preorder t).filter fun n =>
            n.kind.isFunction && locEndLine n.loc - locStartLine n.loc + 1 > 50).map
          fun n =>
            createResult "long-function" .info .codeSmell
              ("Function '" ++ getFunctionName n.funcKind ++ "' is " ++
                toString (locEndLine n.loc - locStartLine n.loc + 1) ++
                " lines long (max recommended: " ++ toString (50 : Int) ++ ")")
              n.loc
              (some "Consider breaking this function into smaller, more focused functions")
              ""))
    ∧ (∀ gen, longFunctionRun gen exampleFunc50 = [])
    ∧ (∀ gen, longFunctionRun gen exampleFunc51 =
        [{ id := "long-function" ++ "-" ++ gen 0
           message := "Function 'f' is 51 lines long (max recommended: 50)"
           severity := .info
           category := .codeSmell
           range := { start := { line := 0, character := 0 }
                      stop := { line := 50, character := 1 } }
           ruleId := "long-function"
           suggestion := some "Consider breaking this function into smaller, more focused functions" }]) := by
  refine ⟨fun gen t => rfl, fun gen => rfl, fun gen => ?_⟩
  rfl

/-! ## C6 — python analyzer failure handling -/

/-- Did the external analyzer run fail (rejected invocation — process
error or unparsable output — or a resolved result with
`success: false`)? -/
def pythonRunFailed (outcome : PythonRunOutcome) : Bool :=
  match outcome with
  | .error _ => true
  | .ok r => !r.success

/-- C6: whenever the external Python analyzer fails, `analyzeFile`
returns a well-formed report (language `python`, the caller's file path)
containing exactly one Finding, of severity `error` and category
`potential-issue`, carrying the failure message. -/
theorem pythonAnalyzer_failure_single_finding :
    ∀ (outcome : PythonRunOutcome) (filePath : String) (now : Int),
      pythonRunFailed outcome = true →
      (pythonAnalyzeFile outcome filePath now).language = "python" ∧
      (pythonAnalyzeFile outcome filePath now).filePath = filePath ∧
      (pythonAnalyzeFile outcome filePath now).results.length = 1 ∧
      ∀ r ∈ (pythonAnalyzeFile outcome filePath now).results,
        r.severity = .error ∧ r.category = .potentialIssue ∧
        r.message = (match outcome with
          | .error e => "Analysis failed: " ++ e
          | .ok pr => jsStringOr pr.message "Failed to parse Python file") := by
  intro outcome filePath now hfail
  cases outcome with
  | error e =>
      refine ⟨rfl, rfl, rfl, ?_⟩
      intro r hr
      simp only [pythonAnalyzeFile, List.mem_singleton] at hr
      subst hr
      exact ⟨rfl, rfl, rfl⟩
  | ok pr =>
      have hs : pr.success = false := by
        simpa [pythonRunFailed] using hfail
      have hrep : pythonAnalyzeFile (Except.ok pr) filePath now =
          { filePath := filePath
            language := "python"
            results :=
              [{ id := "syntax_error"
                 message := jsStringOr pr.message "Failed to parse Python file"
                 severity := .error
                 category := .potentialIssue
                 range := { start := { line := 1, character := 0 }
                            stop := { line := 1, character := 0 } }
                 ruleId := "syntax_error"
                 suggestion := none }]
            timestamp := now } := by
        simp [pythonAnalyzeFile, hs]
      rw [hrep]
      refine ⟨rfl, rfl, rfl, ?_⟩
      intro r hr
      simp only [List.mem_singleton] at hr
      subst hr
      exact ⟨rfl, rfl, rfl⟩

/-- Witness for C6 at a concrete rejected analyzer invocation. -/
theorem pythonAnalyzer_failure_single_finding_witness :
    pythonRunFailed (Except.error "boom") = true ∧
    (pythonAnalyzeFile (Except.error "boom") "m.py" 0).results.length = 1 :=
  ⟨by decide,
   (pythonAnalyzer_failure_single_finding (Except.error "boom") "m.py" 0
     (by decide)).2.2.1⟩

/-! ## C7 — a throwing rule is isolated -/

/-- C7: if one rule's `analyze` throws, the exception is caught, that
rule contributes zero findings, and every other enabled rule (before and
after it) still contributes exactly what it would have contributed: the
report's results equal those of the same engine without the throwing
rule. -/
theorem rule_exception_isolated :
    ∀ (pre post : List Rule) (bad : Rule) (e : String) (code filePath : String)
      (options : AnalyzerOptions) (now : Int),
      bad.analyze code filePath = .error e →
      (analyzeFile (pre ++ bad :: post) code filePath options now).results
        = (analyzeFile (pre ++ post) code filePath options now).results := by
  intro pre post bad e code filePath options now h
  simp only [analyzeFile, getEnabledRules, List.filter_append, List.filter_cons]
  by_cases hb : bad.enabled = true ∧
      (options.enabledRules = [] ∨ bad.id ∈ options.enabledRules)
  · simp [hb, h, List.flatMap_append]
  · simp [hb, List.flatMap_append]

/-- A rule that always throws, and a concrete run showing C7 at work. -/
def throwingRule : Rule :=
  { id := "bad-rule"
    name := "Bad Rule"
    description := "always throws"
    category := .codeSmell
    severity := .info
    enabled := true
    analyze := fun _ _ => .error "boom" }

/-- Witness for C7: dropping a concrete throwing rule from a concrete
engine leaves the results unchanged. -/
theorem rule_exception_isolated_witness :
    throwingRule.analyze "" "a.js" = .error "boom" ∧
    (analyzeFile ([] ++ throwingRule :: []) "" "a.js" ⟨[], "javascript"⟩ 0).results
      = (analyzeFile ([] ++ []) "" "a.js" ⟨[], "javascript"⟩ 0).results :=
  ⟨rfl,
   rule_exception_isolated [] [] throwingRule "boom" "" "a.js" ⟨[], "javascript"⟩ 0
     rfl⟩

/-! ## C8 — enabled rule selection and disabled-rule suppression -/

/-- Every finding of `baseRuleAnalyze` comes from the visitor run on some
parse tree (the non-`null` parse result). -/
theorem mem_baseRuleAnalyze
    {babelParse : String → List String → Except String Node}
    {run : Node → List AnalysisResult} {code filePath : String}
    {r : AnalysisResult}
    (h : r ∈ baseRuleAnalyze babelParse run code filePath) :
    ∃ ast, r ∈ run ast := by
  unfold baseRuleAnalyze at h
  cases hp : parseCode babelParse code (getLanguageFromPath filePath) with
  | none => rw [hp] at h; simp at h
  | some ast => rw [hp] at h; exact ⟨ast, h⟩

/-- C8: with an empty caller allow-list the enabled set is all registered
enabled rules; with a non-empty allow-list it is exactly the registered
enabled rules whose id the allow-list contains; consequently, excluding
`"long-function"` from a non-empty allow-list yields zero findings with
that `ruleId`, whatever the input. -/
theorem enabled_rule_selection :
    (∀ (rules : List Rule) (options : AnalyzerOptions),
      options.enabledRules = [] →
      getEnabledRules rules options = rules.filter fun r => r.enabled)
    ∧ (∀ (rules : List Rule) (options : AnalyzerOptions),
      options.enabledRules ≠ [] →
      getEnabledRules rules options
        = rules.filter fun r => r.enabled && options.enabledRules.contains r.id)
    ∧ (∀ (babelParse : String → List String → Except String Node)
        (gen : Nat → String) (code filePath : String)
        (options : AnalyzerOptions) (now : Int),
      options.enabledRules ≠ [] →
      options.enabledRules.contains "long-function" = false →
      ∀ r ∈ (analyzeFileJS babelParse gen code filePath options now).results,
        r.ruleId ≠ "long-function") := by
  refine ⟨?_, ?_, ?_⟩
  · intro rules options hemp
    unfold getEnabledRules
    apply List.filter_congr
    intro r _
    simp [hemp]
  · intro rules options hne
    unfold getEnabledRules
    apply List.filter_congr
    intro r _
    have : options.enabledRules.isEmpty = false := by
      simpa [List.isEmpty_iff] using hne
    simp [this]
  · intro babelParse gen code filePath options now hne hlf r hr
    simp only [analyzeFileJS, analyzeFile, List.mem_flatMap] at hr
    obtain ⟨rule, hrule, hrr⟩ := hr
    have hiemp : options.enabledRules.isEmpty = false := by
      simpa [List.isEmpty_iff] using hne
    have hmem := List.mem_of_mem_filter hrule
    have hpred := List.of_mem_filter hrule
    simp only [jsRules, List.mem_cons, List.not_mem_nil, or_false] at hmem
    rcases hmem with h1 | h2 | h3
    · subst h1
      simp only [unusedVariableRule] at hrr
      obtain ⟨ast, hast⟩ := mem_baseRuleAnalyze hrr
      rw [unusedVariableRun_ruleId gen ast r hast]
      decide
    · subst h2
      simp only [asyncWithoutAwaitRule] at hrr
      obtain ⟨ast, hast⟩ := mem_baseRuleAnalyze hrr
      rw [asyncWithoutAwaitRun_ruleId gen ast r hast]
      decide
    · exfalso
      subst h3
      simp [longFunctionRule, hiemp] at hpred
      have hc : options.enabledRules.contains "long-function" = true :=
        List.elem_eq_true_of_mem hpred
      rw [hc] at hlf
      exact absurd hlf (by simp)

/-! ## C1 — determinism up to the id field -/

/-- The unused-variable findings do not depend on the entropy oracle
except in their `id`. -/
theorem unusedVariableRun_eraseId (gen gen' : Nat → String) (t : Node) :
    (unusedVariableRun gen t).map eraseId = (unusedVariableRun gen' t).map eraseId := by
  unfold unusedVariableRun
  rw [stampIds_map_eraseId, stampIds_map_eraseId]

/-- The async-without-await findings do not depend on the entropy oracle
except in their `id`. -/
theorem asyncWithoutAwaitRun_eraseId (gen gen' : Nat → String) (t : Node) :
    (asyncWithoutAwaitRun gen t).map eraseId
      = (asyncWithoutAwaitRun gen' t).map eraseId := by
  unfold asyncWithoutAwaitRun
  rw [stampIds_map_eraseId, stampIds_map_eraseId]

/-- The long-function findings do not depend on the entropy oracle except
in their `id`. -/
theorem longFunctionRun_eraseId (gen gen' : Nat → String) (t : Node) :
    (longFunctionRun gen t).map eraseId = (longFunctionRun gen' t).map eraseId := by
  unfold longFunctionRun
  rw [stampIds_map_eraseId, stampIds_map_eraseId]

/-- `BaseRule.analyze` respects id-erased equality of visitor runs. -/
theorem baseRuleAnalyze_eraseId
    (babelParse : String → List String → Except String Node)
    (run1 run2 : Node → List AnalysisResult)
    (hrun : ∀ t, (run1 t).map eraseId = (run2 t).map eraseId)
    (code filePath : String) :
    (baseRuleAnalyze babelParse run1 code filePath).map eraseId
      = (baseRuleAnalyze babelParse run2 code filePath).map eraseId := by
  unfold baseRuleAnalyze
  cases parseCode babelParse code (getLanguageFromPath filePath) with
  | none => rfl
  | some ast => exact hrun ast

/-- Engine runs over pointwise-equivalent rule lists (same ids, same
enabled flags, same id-erased analyze behaviour, including whether they
throw) produce the same id-erased results. -/
theorem results_eraseId_congr (code filePath : String) (options : AnalyzerOptions) :
    ∀ {rules1 rules2 : List Rule},
      List.Forall₂ (fun r1 r2 => r1.id = r2.id ∧ r1.enabled = r2.enabled ∧
          (r1.analyze code filePath).toOption.map (List.map eraseId)
            = (r2.analyze code filePath).toOption.map (List.map eraseId))
        rules1 rules2 →
      ((getEnabledRules rules1 options).flatMap fun rule =>
          match rule.analyze code filePath with
          | .ok rs => rs
          | .error _ => []).map eraseId
        = ((getEnabledRules rules2 options).flatMap fun rule =>
            match rule.analyze code filePath with
            | .ok rs => rs
            | .error _ => []).map eraseId := by
  intro rules1 rules2 h
  induction h with
  | nil => rfl
  | @cons r1 r2 l1 l2 hr hl ih =>
      obtain ⟨hid, hen, hobs⟩ := hr
      have hcontrib :
          (match r1.analyze code filePath with
            | .ok rs => rs
            | .error _ => ([] : List AnalysisResult)).map eraseId
          = (match r2.analyze code filePath with
            | .ok rs => rs
            | .error _ => []).map eraseId := by
        cases h1 : r1.analyze code filePath <;> cases h2 : r2.analyze code filePath <;>
          simp [h1, h2, Except.toOption] at hobs ⊢ <;> simp [hobs]
      by_cases hc : (r1.enabled &&
          (options.enabledRules.isEmpty || options.enabledRules.contains r1.id)) = true
      · have hc2 : (r2.enabled &&
            (options.enabledRules.isEmpty || options.enabledRules.contains r2.id)) = true := by
          rw [← hid, ← hen]
          exact hc
        unfold getEnabledRules at *
        rw [List.filter_cons, if_pos hc, List.filter_cons, if_pos hc2]
        rw [List.flatMap_cons, List.flatMap_cons, List.map_append, List.map_append]
        rw [hcontrib, ih]
      · have hc2 : ¬ (r2.enabled &&
            (options.enabledRules.isEmpty || options.enabledRules.contains r2.id)) = true := by
          rw [← hid, ← hen]
          exact hc
        unfold getEnabledRules at *
        rw [List.filter_cons, if_neg hc, List.filter_cons, if_neg hc2]
        exact ih

/-- C1: running `analyzeFile` twice on the same source text, file path,
options and configuration snapshot yields finding lists equal up to the
`id` field — same length, same order, and identical message, severity,
category, range, ruleId and suggestion at every position.  The two runs
are modelled by two arbitrary entropy oracles and timestamps (the only
run-varying inputs). -/
theorem analyzeFile_deterministic_up_to_id
    (babelParse : String → List String → Except String Node)
    (gen gen' : Nat → String) (code filePath : String)
    (options : AnalyzerOptions) (now now' : Int) :
    ((analyzeFileJS babelParse gen code filePath options now).results).map eraseId
      = ((analyzeFileJS babelParse gen' code filePath options now').results).map eraseId := by
  simp only [analyzeFileJS, analyzeFile]
  apply results_eraseId_congr
  refine List.Forall₂.cons ⟨rfl, rfl, ?_⟩
    (List.Forall₂.cons ⟨rfl, rfl, ?_⟩
      (List.Forall₂.cons ⟨rfl, rfl, ?_⟩ List.Forall₂.nil))
  · simp only [unusedVariableRule, Except.toOption, Option.map]
    rw [baseRuleAnalyze_eraseId babelParse _ _ (unusedVariableRun_eraseId gen gen') code filePath]
  · simp only [asyncWithoutAwaitRule, Except.toOption, Option.map]
    rw [baseRuleAnalyze_eraseId babelParse _ _ (asyncWithoutAwaitRun_eraseId gen gen') code filePath]
  · simp only [longFunctionRule, Except.toOption, Option.map]
    rw [baseRuleAnalyze_eraseId babelParse _ _ (longFunctionRun_eraseId gen gen') code filePath]

/-! ## C2 — parse-failure resilience -/

/-- C2: on source text the parser rejects (`parseCode` returns `null`
instead of throwing), `analyzeFile` still returns a well-formed report:
its `language` is set (to the caller's language), its results contain
zero tree-based findings, and every rule's `analyze` returns the empty
list (`.ok []` — no exception propagates). -/
theorem parse_failure_resilience
    (babelParse : String → List String → Except String Node)
    (gen : Nat → String) (code filePath : String)
    (options : AnalyzerOptions) (now : Int)
    (hp : parseCode babelParse code (getLanguageFromPath filePath) = none) :
    (analyzeFileJS babelParse gen code filePath options now).results = [] ∧
    (analyzeFileJS babelParse gen code filePath options now).language
      = options.language ∧
    ∀ rule ∈ jsRules babelParse gen, rule.analyze code filePath = .ok [] := by
  have hall : ∀ rule ∈ jsRules babelParse gen,
      rule.analyze code filePath = .ok ([] : List AnalysisResult) := by
    intro rule hr
    simp only [jsRules, List.mem_cons, List.not_mem_nil, or_false] at hr
    rcases hr with h | h | h <;> subst h <;>
      simp [unusedVariableRule, asyncWithoutAwaitRule, longFunctionRule,
        baseRuleAnalyze, hp]
  refine ⟨?_, rfl, hall⟩
  simp only [analyzeFileJS, analyzeFile]
  apply List.flatMap_eq_nil_iff.mpr
  intro rule hrule
  rw [hall rule (List.mem_of_mem_filter hrule)]

/-- A parser stub rejecting every input, as Babel does on syntactically
invalid primary-language text. -/
def parseFail : String → List String → Except String Node :=
  fun _ _ => .error "SyntaxError"

/-- A concrete entropy oracle for witnesses. -/
def genStub : Nat → String := fun _ => "e"

/-- Witness for C2 on a concrete invalid input. -/
theorem parse_failure_resilience_witness :
    parseCode parseFail "const x = " (getLanguageFromPath "a.js") = none ∧
    (analyzeFileJS parseFail genStub "const x = " "a.js" ⟨[], "javascript"⟩ 0).results
      = [] :=
  ⟨rfl,
   (parse_failure_resilience parseFail genStub "const x = " "a.js"
     ⟨[], "javascript"⟩ 0 rfl).1⟩

/-- A parser stub returning the `exampleUnused` tree for every input. -/
def parseStubUnused : String → List String → Except String Node :=
  fun _ _ => .ok exampleUnused

/-- The single finding the engine produces on `exampleUnused` with the
allow-list `["unused-variable"]` and entropy `genStub`. -/
def unusedFinding : AnalysisResult :=
  { id := "unused-variable" ++ "-" ++ "e"
    message := "Variable 'unusedVar' is declared but never used"
    severity := .warning
    category := .codeSmell
    range := { start := { line := 0, character := 6 }
               stop := { line := 0, character := 15 } }
    ruleId := "unused-variable"
    suggestion := some "Consider removing unused variable 'unusedVar' or use it in your code" }

/-- Witness for C8: a concrete run whose allow-list excludes
`"long-function"`, applied to a finding of that run. -/
theorem enabled_rule_selection_witness :
    (["unused-variable"] : List String) ≠ [] ∧
    (["unused-variable"] : List String).contains "long-function" = false ∧
    unusedFinding.ruleId ≠ "long-function" :=
  ⟨by decide, by decide,
   enabled_rule_selection.2.2 parseStubUnused genStub "" "a.js"
     ⟨["unused-variable"], "javascript"⟩ 0 (by decide) (by decide) unusedFinding
     (by decide)⟩

/-! ## C4 — unused-variable rule -/

/-- Does this node declare the name `s` (a `VariableDeclarator` whose
`id` is the `Identifier` `s`)? -/
def declaresName (s : String) (n : Node) : Bool :=
  match n.kind with
  | .variableDeclarator (some (name, _)) => name == s
  | _ => false

/-- Is this node a read reference of `s` (an `Identifier` occurrence of
`s` for which `isReferencedIdentifier()` holds — which excludes the
declaration site itself and left-hand-side-only reassignment
occurrences)? -/
def readsName (s : String) (n : Node) : Bool :=
  match n.kind with
  | .identifier name isReferenced => isReferenced && name == s
  | _ => false

/-- Is the name `s` declared anywhere in the tree? -/
def declaredIn (s : String) (t : Node) : Bool :=
  (preorder t).any (declaresName s)

/-- Is the name `s` read anywhere in the tree? -/
def readIn (s : String) (t : Node) : Bool :=
  (preorder t).any (readsName s)

/-- `mapSet` leaves the key sequence unchanged when the key is present. -/
theorem mapSet_update_fst (m : List (String × Option Loc)) (k : String) (v : Option Loc) :
    (m.map fun p => if p.1 == k then (k, v) else p).map Prod.fst = m.map Prod.fst := by
  rw [List.map_map]
  apply List.map_congr_left
  intro p _
  by_cases hpk : p.1 == k
  · simp only [Function.comp, hpk, if_pos]
    exact (eq_of_beq hpk).symm
  · simp [Function.comp, hpk]

/-- Key membership after `mapSet`: the old keys plus the new key. -/
theorem mem_fst_mapSet {m : List (String × Option Loc)} {k : String}
    {v : Option Loc} {s : String} :
    s ∈ (mapSet m k v).map Prod.fst ↔ s ∈ m.map Prod.fst ∨ s = k := by
  unfold mapSet
  by_cases hany : m.any (fun p => p.1 == k) = true
  · rw [if_pos hany, mapSet_update_fst]
    constructor
    · exact Or.inl
    · rintro (h | h)
      · exact h
      · subst h
        obtain ⟨p, hp, hpk⟩ := List.any_eq_true.mp hany
        rw [← eq_of_beq hpk]
        exact List.mem_map_of_mem _ hp
  · rw [if_neg hany, List.map_append]
    simp
/-- Key distinctness is preserved by `mapSet` (JS `Map` keys are
unique). -/
theorem nodup_fst_mapSet {m : List (String × Option Loc)} {k : String}
    {v : Option Loc} (h : (m.map Prod.fst).Nodup) :
    ((mapSet m k v).map Prod.fst).Nodup := by
  unfold mapSet
  by_cases hany : m.any (fun p => p.1 == k) = true
  · rw [if_pos hany, mapSet_update_fst]
    exact h
  · rw [if_neg hany, List.map_append]
    have hk : k ∉ m.map Prod.fst := by
      intro hmem
      obtain ⟨p, hp, hps⟩ := List.mem_map.mp hmem
      have : m.any (fun p => p.1 == k) = true :=
        List.any_eq_true.mpr ⟨p, hp, by rw [hps]; exact beq_self_eq_true k⟩
      exact hany this
    simp [List.nodup_append, h, hk]

/-- Every entry of `mapSet m k v` is an old entry or the new one. -/
theorem mem_mapSet {m : List (String × Option Loc)} {k : String}
    {v : Option Loc} {p : String × Option Loc} (h : p ∈ mapSet m k v) :
    p ∈ m ∨ p = (k, v) := by
  unfold mapSet at h
  by_cases hany : m.any (fun p => p.1 == k) = true
  · rw [if_pos hany] at h
    obtain ⟨q, hq, hqp⟩ := List.mem_map.mp h
    by_cases hqk : q.1 == k
    · rw [if_pos hqk] at hqp
      exact Or.inr hqp.symm
    · rw [if_neg hqk] at hqp
      exact Or.inl (hqp ▸ hq)
  · rw [if_neg hany] at h
    rcases List.mem_append.mp h with h | h
    · exact Or.inl h
    · exact Or.inr (List.mem_singleton.mp h)

/-- One visitor step, `usedVars` component: a name is in `usedVars`
afterwards iff it was before or the node is a read reference of it. -/
theorem usedVars_unusedStep (st : UnusedState) (n : Node) (s : String) :
    s ∈ (unusedStep st n).usedVars ↔ s ∈ st.usedVars ∨ readsName s n = true := by
  unfold unusedStep readsName
  rcases hk : n.kind with _ | ⟨fk, b⟩ | _ | declId | ⟨name, ref⟩ | _ <;> simp only [hk]
  · simp
  · simp
  · simp
  · cases declId with
    | none => simp
    | some q => simp
  · cases ref with
    | true =>
        by_cases hc : st.usedVars.contains name = true
        · have hmem : name ∈ st.usedVars := by
            simpa using hc
          simp only [if_pos hc, Bool.true_and, beq_iff_eq]
          constructor
          · exact Or.inl
          · rintro (h | h)
            · exact h
            · rw [← h]
              exact hmem
        · have hmem : name ∉ st.usedVars := by
            simpa using hc
          simp only [if_neg hc, List.mem_append, List.mem_singleton,
            Bool.true_and, beq_iff_eq]
          constructor
          · rintro (h | h)
            · exact Or.inl h
            · exact Or.inr h.symm
          · rintro (h | h)
            · exact Or.inl h
            · exact Or.inr h.symm
    | false => simp
  · simp

/-- `usedVars` after the whole walk: exactly the names with some read
reference among the visited nodes (plus what was there initially). -/
theorem usedVars_foldl (ns : List Node) : ∀ (st : UnusedState) (s : String),
    s ∈ (ns.foldl unusedStep st).usedVars ↔
      s ∈ st.usedVars ∨ ∃ n ∈ ns, readsName s n = true := by
  induction ns with
  | nil => intro st s; simp
  | cons n ns ih =>
      intro st s
      rw [List.foldl_cons, ih, usedVars_unusedStep]
      simp only [List.mem_cons]
      constructor
      · rintro ((h | h) | ⟨n', hn', hr⟩)
        · exact Or.inl h
        · exact Or.inr ⟨n, Or.inl rfl, h⟩
        · exact Or.inr ⟨n', Or.inr hn', hr⟩
      · rintro (h | ⟨n', hn' | hn', hr⟩)
        · exact Or.inl (Or.inl h)
        · subst hn'
          exact Or.inl (Or.inr hr)
        · exact Or.inr ⟨n', hn', hr⟩


/-- One visitor step, `declaredVars` component: only a declarator with an
`Identifier` id touches the declaration map. -/
theorem unusedStep_declaredVars (st : UnusedState) (n : Node) :
    (unusedStep st n).declaredVars =
      (match n.kind with
        | .variableDeclarator (some (name, idLoc)) => mapSet st.declaredVars name idLoc
        | _ => st.declaredVars) := by
  obtain ⟨k, l, cs⟩ := n
  rcases k with _ | ⟨fk, b⟩ | _ | declId | ⟨name, ref⟩ | _
  · rfl
  · rfl
  · rfl
  · rcases declId with _ | ⟨name, idLoc⟩
    · rfl
    · rfl
  · rcases ref with _ | _
    · rfl
    · show (if st.usedVars.contains name = true then st
        else { st with usedVars := st.usedVars ++ [name] }).declaredVars
          = st.declaredVars
      split
      · rfl
      · rfl
  · rfl

/-- One visitor step, `declaredVars` key component. -/
theorem declaredVars_fst_unusedStep (st : UnusedState) (n : Node) (s : String) :
    s ∈ (unusedStep st n).declaredVars.map Prod.fst ↔
      s ∈ st.declaredVars.map Prod.fst ∨ declaresName s n = true := by
  rw [unusedStep_declaredVars]
  unfold declaresName
  obtain ⟨k, l, cs⟩ := n
  rcases k with _ | ⟨fk, b⟩ | _ | declId | ⟨name, ref⟩ | _
  case mk.variableDeclarator =>
    rcases declId with _ | ⟨name, idLoc⟩
    · show s ∈ st.declaredVars.map Prod.fst ↔
        s ∈ st.declaredVars.map Prod.fst ∨ false = true
      simp
    · show s ∈ (mapSet st.declaredVars name idLoc).map Prod.fst ↔
        s ∈ st.declaredVars.map Prod.fst ∨ (name == s) = true
      rw [mem_fst_mapSet]
      simp only [beq_iff_eq]
      constructor
      · rintro (h | h)
        · exact Or.inl h
        · exact Or.inr h.symm
      · rintro (h | h)
        · exact Or.inl h
        · exact Or.inr h.symm
  all_goals
    show s ∈ st.declaredVars.map Prod.fst ↔
      s ∈ st.declaredVars.map Prod.fst ∨ false = true
  all_goals simp

/-- `declaredVars` keys after the whole walk: exactly the declared
names. -/
theorem declaredVars_fst_foldl (ns : List Node) : ∀ (st : UnusedState) (s : String),
    s ∈ ((ns.foldl unusedStep st).declaredVars.map Prod.fst) ↔
      s ∈ st.declaredVars.map Prod.fst ∨ ∃ n ∈ ns, declaresName s n = true := by
  induction ns with
  | nil => intro st s; simp
  | cons n ns ih =>
      intro st s
      rw [List.foldl_cons, ih, declaredVars_fst_unusedStep]
      simp only [List.mem_cons]
      constructor
      · rintro ((h | h) | ⟨n', hn', hr⟩)
        · exact Or.inl h
        · exact Or.inr ⟨n, Or.inl rfl, h⟩
        · exact Or.inr ⟨n', Or.inr hn', hr⟩
      · rintro (h | ⟨n', hn' | hn', hr⟩)
        · exact Or.inl (Or.inl h)
        · subst hn'
          exact Or.inl (Or.inr hr)
        · exact Or.inr ⟨n', hn', hr⟩

/-- The walk keeps `declaredVars` keys distinct. -/
theorem declaredVars_fst_nodup (ns : List Node) : ∀ (st : UnusedState),
    (st.declaredVars.map Prod.fst).Nodup →
    ((ns.foldl unusedStep st).declaredVars.map Prod.fst).Nodup := by
  induction ns with
  | nil => intro st h; exact h
  | cons n ns ih =>
      intro st h
      rw [List.foldl_cons]
      apply ih
      rw [unusedStep_declaredVars]
      obtain ⟨k, l, cs⟩ := n
      rcases k with _ | ⟨fk, b⟩ | _ | declId | ⟨name, ref⟩ | _
      · exact h
      · exact h
      · exact h
      · rcases declId with _ | ⟨name, idLoc⟩
        · exact h
        · exact nodup_fst_mapSet h
      · exact h
      · exact h

/-- Every `declaredVars` entry records a declarator node of the walked
list (or was present initially). -/
theorem declaredVars_prov (ns : List Node) : ∀ (st : UnusedState)
    (p : String × Option Loc),
    p ∈ (ns.foldl unusedStep st).declaredVars →
    p ∈ st.declaredVars ∨ ∃ n ∈ ns, n.kind = .variableDeclarator (some p) := by
  induction ns with
  | nil => intro st p h; exact Or.inl h
  | cons n ns ih =>
      intro st p h
      rw [List.foldl_cons] at h
      rcases ih _ p h with h1 | ⟨n', hn', hk'⟩
      · rw [unusedStep_declaredVars] at h1
        obtain ⟨k, l, cs⟩ := n
        rcases k with _ | ⟨fk, b⟩ | _ | declId | ⟨name, ref⟩ | _
        · exact Or.inl h1
        · exact Or.inl h1
        · exact Or.inl h1
        · rcases declId with _ | ⟨name, idLoc⟩
          · exact Or.inl h1
          · rcases mem_mapSet h1 with h2 | h2
            · exact Or.inl h2
            · refine Or.inr ⟨_, List.mem_cons_self _ ns, ?_⟩
              rw [h2]
              rfl
        · exact Or.inl h1
        · exact Or.inl h1
      · exact Or.inr ⟨n', List.mem_cons_of_mem n hn', hk'⟩

/-- The flagged names are exactly the declared-but-never-read names. -/
theorem mem_fst_unusedCore (t : Node) (s : String) :
    s ∈ (unusedCore t).map Prod.fst ↔
      declaredIn s t = true ∧ ¬ readIn s t = true := by
  unfold unusedCore
  constructor
  · intro h
    obtain ⟨p, hp, hps⟩ := List.mem_map.mp h
    have hpf := List.of_mem_filter hp
    have hpm := List.mem_of_mem_filter hp
    constructor
    · have hmem : s ∈ ((preorder t).foldl unusedStep ⟨[], []⟩).declaredVars.map Prod.fst :=
        hps ▸ List.mem_map_of_mem _ hpm
      rcases (declaredVars_fst_foldl (preorder t) ⟨[], []⟩ s).mp hmem with h2 | ⟨n, hn, hd⟩
      · simp at h2
      · exact List.any_eq_true.mpr ⟨n, hn, hd⟩
    · intro hread
      obtain ⟨n, hn, hr⟩ := List.any_eq_true.mp hread
      have hs : s ∈ ((preorder t).foldl unusedStep ⟨[], []⟩).usedVars :=
        (usedVars_foldl (preorder t) ⟨[], []⟩ s).mpr (Or.inr ⟨n, hn, hr⟩)
      rw [hps] at hpf
      have hc : ((preorder t).foldl unusedStep ⟨[], []⟩).usedVars.contains s = true :=
        List.elem_eq_true_of_mem hs
      rw [hc] at hpf
      simp at hpf
  · rintro ⟨hdecl, hnread⟩
    obtain ⟨n, hn, hd⟩ := List.any_eq_true.mp hdecl
    have hkey : s ∈ ((preorder t).foldl unusedStep ⟨[], []⟩).declaredVars.map Prod.fst :=
      (declaredVars_fst_foldl (preorder t) ⟨[], []⟩ s).mpr (Or.inr ⟨n, hn, hd⟩)
    obtain ⟨p, hp, hps⟩ := List.mem_map.mp hkey
    have hnotused : s ∉ ((preorder t).foldl unusedStep ⟨[], []⟩).usedVars := by
      intro hs
      rcases (usedVars_foldl (preorder t) ⟨[], []⟩ s).mp hs with h2 | ⟨n', hn', hr'⟩
      · simp at h2
      · exact hnread (List.any_eq_true.mpr ⟨n', hn', hr'⟩)
    refine List.mem_map.mpr ⟨p, List.mem_filter.mpr ⟨hp, ?_⟩, hps⟩
    have hc : ((preorder t).foldl unusedStep ⟨[], []⟩).usedVars.contains s = false := by
      cases hcb : ((preorder t).foldl unusedStep ⟨[], []⟩).usedVars.contains s
      · rfl
      · exact absurd (List.mem_of_elem_eq_true hcb) hnotused
    rw [hps, hc]
    rfl

/-- The flagged name list has no duplicates. -/
theorem nodup_fst_unusedCore (t : Node) :
    ((unusedCore t).map Prod.fst).Nodup := by
  unfold unusedCore
  have hsub : ((((preorder t).foldl unusedStep ⟨[], []⟩).declaredVars.filter
      (fun p => !((preorder t).foldl unusedStep ⟨[], []⟩).usedVars.contains p.1)).map
        Prod.fst).Sublist
      (((preorder t).foldl unusedStep ⟨[], []⟩).declaredVars.map Prod.fst) :=
    List.Sublist.map _ (List.filter_sublist _)
  exact (declaredVars_fst_nodup (preorder t) ⟨[], []⟩ (by simp)).sublist hsub

/-- C4: after the full traversal, the unused-variable rule's finalization
step flags each declared name with zero read references exactly once (and
flags nothing else), anchoring each Finding at the recorded declarator id
node of the tree; on the spec's example it flags `unusedVar` exactly once
at its declaration and does not flag `used`. -/
theorem unusedVariable_flags_exactly_unread_decls :
    (∀ (gen : Nat → String) (t : Node),
      unusedVariableRun gen t = stampIds gen ((unusedCore t).map fun p =>
        createResult "unused-variable" .warning .codeSmell
          (unusedVariableMessage p.1) p.2 (some (unusedVariableSuggestion p.1)) ""))
    ∧ (∀ (t : Node) (s : String),
      ((unusedCore t).map Prod.fst).count s
        = if declaredIn s t && !readIn s t then 1 else 0)
    ∧ (∀ (t : Node), ∀ p ∈ unusedCore t,
        ∃ n ∈ preorder t, n.kind = .variableDeclarator (some p))
    ∧ (∀ gen : Nat → String, unusedVariableRun gen exampleUnused =
        [{ id := "unused-variable" ++ "-" ++ gen 0
           message := "Variable 'unusedVar' is declared but never used"
           severity := .warning
           category := .codeSmell
           range := { start := { line := 0, character := 6 }
                      stop := { line := 0, character := 15 } }
           ruleId := "unused-variable"
           suggestion := some "Consider removing unused variable 'unusedVar' or use it in your code" }]) := by
  refine ⟨fun gen t => rfl, ?_, ?_, fun gen => rfl⟩
  · intro t s
    by_cases h : s ∈ (unusedCore t).map Prod.fst
    · have hcond := (mem_fst_unusedCore t s).mp h
      have hrf : readIn s t = false := by
        cases hrb : readIn s t
        · rfl
        · exact absurd hrb hcond.2
      rw [if_pos (by simp [hcond.1, hrf])]
      exact List.count_eq_one_of_mem (nodup_fst_unusedCore t) h
    · rw [if_neg, List.count_eq_zero_of_not_mem h]
      intro hcond
      apply h
      apply (mem_fst_unusedCore t s).mpr
      simp only [Bool.and_eq_true, Bool.not_eq_true'] at hcond
      exact ⟨hcond.1, by rw [hcond.2]; exact Bool.false_ne_true⟩
  · intro t p hp
    unfold unusedCore at hp
    have hpm := List.mem_of_mem_filter hp
    rcases declaredVars_prov (preorder t) ⟨[], []⟩ p hpm with h | h
    · simp at h
    · exact h

/-- Witness for C4: the `unusedVar` entry of the example tree, with its
provenance discharged at a concrete input. -/
theorem unusedVariable_flags_exactly_unread_decls_witness :
    ("unusedVar", some (⟨1, 6, 1, 15⟩ : Loc)) ∈ unusedCore exampleUnused ∧
    ∃ n ∈ preorder exampleUnused,
      n.kind = .variableDeclarator (some ("unusedVar", some ⟨1, 6, 1, 15⟩)) :=
  ⟨by decide,
   unusedVariable_flags_exactly_unread_decls.2.2.1 exampleUnused
     ("unusedVar", some ⟨1, 6, 1, 15⟩) (by decide)⟩

/-! ## C3 — async-without-await rule

Spec-side structural definitions: the async functions of a tree with
their pre-order indices, the owners the code attributes awaits to, the
owners the spec prescribes (nearest enclosing *async* function, skipping
non-async functions), and the await-well-formedness condition `awaitsWF`
(every `await` occurs where its nearest enclosing function is async).
Awaits in async function *bodies* satisfy it, but not every
Babel-parseable tree does: an `await` in a computed method key such as
`async function f(){ return { [await x]() {} } }` is valid JavaScript
and sits inside the non-async `ObjectMethod` node, so its
`getFunctionParent()` is non-async.  On such trees the code and the
spec's nearest-async attribution genuinely disagree — the counterexample
theorem at the end of this section exhibits the divergence. -/

/-- Number of nodes of a tree (pre-order length). -/
def treeSize (n : Node) : Nat := (preorder n).length

/-- Number of nodes of a forest. -/
def forestSize (ns : List Node) : Nat := (preorderList ns).length

mutual
/-- The async function nodes of a tree in pre-order, paired with their
pre-order indices (the tree's root having index `idx`). -/
def asyncFuncsOf : Node → Nat → List (Nat × Node)
  | .mk k l cs, idx =>
      (match k with
        | .function _ true => [(idx, .mk k l cs)]
        | _ => []) ++ asyncFuncsOfList cs (idx + 1)

/-- `asyncFuncsOf` over a forest of consecutive siblings. -/
def asyncFuncsOfList : List Node → Nat → List (Nat × Node)
  | [], _ => []
  | c :: cs, idx => asyncFuncsOf c idx ++ asyncFuncsOfList cs (idx + treeSize c)
end

mutual
/-- The owner indices the code's `AwaitExpression` visitor records: for
each await, `getFunctionParent()`'s index (`ctx`) whenever that nearest
enclosing function is async (`ctxAsync` — by pre-order, the registered
map contains exactly the async functions already entered, so the
membership test equals the asyncness of the nearest enclosing
function). -/
def codeAwaitedOf : Node → Option Nat → Bool → Nat → List Nat
  | .mk k l cs, ctx, ctxAsync, idx =>
      (match k with
        | .awaitExpression =>
            (match ctx with
              | some j => if ctxAsync then [j] else []
              | none => [])
        | _ => []) ++
      codeAwaitedOfList cs
        (if k.isFunction then some idx else ctx)
        (match k with
          | .function _ a => a
          | _ => ctxAsync)
        (idx + 1)

/-- `codeAwaitedOf` over a forest of consecutive siblings. -/
def codeAwaitedOfList : List Node → Option Nat → Bool → Nat → List Nat
  | [], _, _, _ => []
  | c :: cs, ctx, ctxAsync, idx =>
      codeAwaitedOf c ctx ctxAsync idx ++
        codeAwaitedOfList cs ctx ctxAsync (idx + treeSize c)
end

mutual
/-- The spec's owners: for each await, the index of its nearest
enclosing *asynchronous* function (`actx`), skipping over nested
non-async functions. -/
def asyncOwnersOf : Node → Option Nat → Nat → List Nat
  | .mk k l cs, actx, idx =>
      (match k with
        | .awaitExpression => actx.toList
        | _ => []) ++
      asyncOwnersOfList cs
        (match k with
          | .function _ true => some idx
          | _ => actx)
        (idx + 1)

/-- `asyncOwnersOf` over a forest of consecutive siblings. -/
def asyncOwnersOfList : List Node → Option Nat → Nat → List Nat
  | [], _, _ => []
  | c :: cs, actx, idx =>
      asyncOwnersOf c actx idx ++ asyncOwnersOfList cs actx (idx + treeSize c)
end

mutual
/-- Await-well-formedness: every `await` occurs where the nearest
enclosing function exists and is async (`fnAsync` is the asyncness of
the nearest enclosing function, `none` outside every function).  Awaits
in async function bodies satisfy this, but it is *not* an invariant of
every Babel-parseable tree: an `await` in a computed method key,
decorator or parameter default nested in an async function has a
non-async nearest enclosing function node. -/
def awaitsWF : Node → Option Bool → Bool
  | .mk k l cs, fnAsync =>
      (match k with
        | .awaitExpression => fnAsync == some true
        | _ => true) &&
      awaitsWFList cs
        (match k with
          | .function _ a => some a
          | _ => fnAsync)

/-- `awaitsWF` over a forest of consecutive siblings. -/
def awaitsWFList : List Node → Option Bool → Bool
  | [], _ => true
  | c :: cs, fnAsync => awaitsWF c fnAsync && awaitsWFList cs fnAsync
end

/-- Tree size unfolds to one plus the forest size of the children. -/
theorem treeSize_mk (k : NodeKind) (l : Option Loc) (cs : List Node) :
    treeSize (.mk k l cs) = 1 + forestSize cs := by
  unfold treeSize forestSize preorder
  simp [Nat.add_comm]

/-- Forest size of a cons. -/
theorem forestSize_cons (c : Node) (cs : List Node) :
    forestSize (c :: cs) = treeSize c + forestSize cs := by
  unfold forestSize treeSize
  rw [show preorderList (c :: cs) = preorder c ++ preorderList cs from rfl]
  simp

/-- Every tree has at least its root. -/
theorem treeSize_pos (n : Node) : 1 ≤ treeSize n := by
  obtain ⟨k, l, cs⟩ := n
  rw [treeSize_mk]
  exact Nat.le_add_right 1 _

mutual
/-- Pre-order indices of a tree's async functions lie in the tree's index
interval. -/
theorem asyncFuncsOf_bounds : ∀ (n : Node) (idx : Nat) (p : Nat × Node),
    p ∈ asyncFuncsOf n idx → idx ≤ p.1 ∧ p.1 < idx + treeSize n
  | .mk k l cs, idx, p => by
      intro hp
      have htail : ∀ q : Nat × Node, q ∈ asyncFuncsOfList cs (idx + 1) →
          idx ≤ q.1 ∧ q.1 < idx + treeSize (.mk k l cs) := by
        intro q hq
        have hb := asyncFuncsOfList_bounds cs (idx + 1) q hq
        rw [treeSize_mk]
        omega
      rcases k with _ | ⟨fk, b⟩ | _ | d | ⟨nm, rf⟩ | _
      case function =>
        rcases b with _ | _
        · exact htail p hp
        · rcases List.mem_cons.mp hp with h | h
          · refine ⟨?_, ?_⟩
            · rw [h]
            · rw [h]
              show idx < idx + treeSize (Node.mk (.function fk true) l cs)
              have := treeSize_pos (Node.mk (.function fk true) l cs)
              omega
          · exact htail p h
      all_goals exact htail p hp

/-- `asyncFuncsOf_bounds` for forests. -/
theorem asyncFuncsOfList_bounds : ∀ (ns : List Node) (idx : Nat) (p : Nat × Node),
    p ∈ asyncFuncsOfList ns idx → idx ≤ p.1 ∧ p.1 < idx + forestSize ns
  | [], idx, p => by
      intro h
      exact absurd h (List.not_mem_nil p)
  | c :: cs, idx, p => by
      intro h
      rcases List.mem_append.mp h with h | h
      · have hb := asyncFuncsOf_bounds c idx p h
        rw [forestSize_cons]
        omega
      · have hb := asyncFuncsOfList_bounds cs (idx + treeSize c) p h
        rw [forestSize_cons]
        omega
end

/-- One-step unfolding of `asyncWalk` at a destructured node. -/
theorem asyncWalk_step (k : NodeKind) (l : Option Loc) (cs : List Node)
    (ctx : Option Nat) (idx : Nat) (st : AsyncState) :
    asyncWalk (.mk k l cs) ctx idx st =
      asyncWalkList cs (if k.isFunction then some idx else ctx) (idx + 1)
        (match k with
          | .function _ true => { st with funcs := st.funcs ++ [(idx, .mk k l cs)] }
          | .awaitExpression =>
              (match ctx with
                | some j =>
                    if st.funcs.any (fun p => p.1 == j) then
                      { st with awaited := st.awaited ++ [j] }
                    else st
                | none => st)
          | _ => st) := by
  rcases k with _ | ⟨fk, b⟩ | _ | d | ⟨nm, rf⟩ | _ <;>
    first
      | rfl
      | (rcases b with _ | _ <;> rfl)
      | (rcases ctx with _ | j <;> rfl)

/-- One-step unfolding of `codeAwaitedOf` at a destructured node. -/
theorem codeAwaitedOf_mk (k : NodeKind) (l : Option Loc) (cs : List Node)
    (ctx : Option Nat) (ctxAsync : Bool) (idx : Nat) :
    codeAwaitedOf (.mk k l cs) ctx ctxAsync idx =
      (match k with
        | .awaitExpression =>
            (match ctx with
              | some j => if ctxAsync then [j] else []
              | none => [])
        | _ => []) ++
      codeAwaitedOfList cs (if k.isFunction then some idx else ctx)
        (match k with
          | .function _ a => a
          | _ => ctxAsync)
        (idx + 1) := by
  rcases k with _ | ⟨fk, b⟩ | _ | d | ⟨nm, rf⟩ | _ <;>
    first
      | rfl
      | (rcases b with _ | _ <;> rfl)
      | (rcases ctx with _ | j <;> rfl)

/-- One-step unfolding of `asyncFuncsOf` at a destructured node. -/
theorem asyncFuncsOf_mk (k : NodeKind) (l : Option Loc) (cs : List Node) (idx : Nat) :
    asyncFuncsOf (.mk k l cs) idx =
      (match k with
        | .function _ true => [(idx, Node.mk k l cs)]
        | _ => []) ++ asyncFuncsOfList cs (idx + 1) := by
  rcases k with _ | ⟨fk, b⟩ | _ | d | ⟨nm, rf⟩ | _ <;>
    first
      | rfl
      | (rcases b with _ | _ <;> rfl)

/-- Indices strictly below `j` never satisfy the membership test for `j`. -/
theorem funcs_any_eq_false {fs : List (Nat × Node)} {j : Nat}
    (h : ∀ p ∈ fs, p.1 < j) : fs.any (fun p => p.1 == j) = false := by
  apply List.any_eq_false.mpr
  intro p hp
  simp only [beq_iff_eq]
  exact Nat.ne_of_lt (h p hp)

mutual
/-- The engine walk of the async-without-await rule, characterised: it
appends exactly the async functions of the subtree to the registration
map and exactly the code-attributed await owners to the flag set, and
advances the index by the subtree size.  `ctxAsync` names the asyncness
of the `ctx` function; the hypotheses say the incoming state holds only
earlier indices and answers the map-membership test for `ctx` with
`ctxAsync` — which pre-order traversal guarantees. -/
theorem asyncWalk_spec : ∀ (n : Node) (ctx : Option Nat) (ctxAsync : Bool)
    (idx : Nat) (st : AsyncState),
    (∀ p ∈ st.funcs, p.1 < idx) →
    (∀ j, ctx = some j → st.funcs.any (fun p => p.1 == j) = ctxAsync ∧ j < idx) →
    asyncWalk n ctx idx st =
      ({ funcs := st.funcs ++ asyncFuncsOf n idx,
         awaited := st.awaited ++ codeAwaitedOf n ctx ctxAsync idx },
       idx + treeSize n)
  | .mk k l cs, ctx, ctxAsync, idx, st => by
      intro hbound hctx
      rcases k with _ | ⟨fk, b⟩ | _ | d | ⟨nm, rf⟩ | _
      case function =>
        rcases b with _ | _
        · show asyncWalkList cs (some idx) (idx + 1) st =
            ({ funcs := st.funcs ++ asyncFuncsOfList cs (idx + 1),
               awaited := st.awaited ++
                 codeAwaitedOfList cs (some idx) false (idx + 1) },
             idx + (forestSize cs + 1))
          rw [asyncWalkList_spec cs (some idx) false (idx + 1) st
            (fun p hp => Nat.lt_succ_of_lt (hbound p hp))
            (by
              intro j hj
              injection hj with hj
              subst hj
              exact ⟨funcs_any_eq_false hbound, Nat.lt_succ_self idx⟩)]
          refine congrArg₂ Prod.mk rfl ?_
          omega
        · show asyncWalkList cs (some idx) (idx + 1)
              { st with funcs := st.funcs ++ [(idx, Node.mk (.function fk true) l cs)] } =
            ({ funcs := st.funcs ++
                 ((idx, Node.mk (.function fk true) l cs) :: asyncFuncsOfList cs (idx + 1)),
               awaited := st.awaited ++
                 codeAwaitedOfList cs (some idx) true (idx + 1) },
             idx + (forestSize cs + 1))
          rw [asyncWalkList_spec cs (some idx) true (idx + 1)
            { st with funcs := st.funcs ++ [(idx, Node.mk (.function fk true) l cs)] }
            (by
              intro p hp
              rcases List.mem_append.mp hp with h | h
              · exact Nat.lt_succ_of_lt (hbound p h)
              · rw [List.mem_singleton.mp h]
                exact Nat.lt_succ_self idx)
            (by
              intro j hj
              injection hj with hj
              subst hj
              refine ⟨?_, Nat.lt_succ_self idx⟩
              rw [List.any_append]
              simp)]
          refine congrArg₂ Prod.mk ?_ (by omega)
          simp [List.append_assoc]
      case awaitExpression =>
        rcases ctx with _ | j
        · show asyncWalkList cs none (idx + 1) st =
            ({ funcs := st.funcs ++ asyncFuncsOfList cs (idx + 1),
               awaited := st.awaited ++
                 codeAwaitedOfList cs none ctxAsync (idx + 1) },
             idx + (forestSize cs + 1))
          rw [asyncWalkList_spec cs none ctxAsync (idx + 1) st
            (fun p hp => Nat.lt_succ_of_lt (hbound p hp))
            (by intro j hj; cases hj)]
          refine congrArg₂ Prod.mk rfl ?_
          omega
        · obtain ⟨hany, hjlt⟩ := hctx j rfl
          show asyncWalkList cs (some j) (idx + 1)
              (if (st.funcs.any fun p => p.1 == j) = true then
                { st with awaited := st.awaited ++ [j] }
              else st) =
            ({ funcs := st.funcs ++ asyncFuncsOfList cs (idx + 1),
               awaited := st.awaited ++
                 ((if ctxAsync = true then [j] else []) ++
                   codeAwaitedOfList cs (some j) ctxAsync (idx + 1)) },
             idx + (forestSize cs + 1))
          rw [hany]
          rcases ctxAsync with _ | _
          · rw [if_neg (by simp)]
            rw [asyncWalkList_spec cs (some j) false (idx + 1) st
              (fun p hp => Nat.lt_succ_of_lt (hbound p hp))
              (by
                intro j' hj'
                injection hj' with hj'
                subst hj'
                exact ⟨hany, Nat.lt_succ_of_lt hjlt⟩)]
            refine congrArg₂ Prod.mk ?_ (by omega)
            simp
          · rw [if_pos rfl]
            rw [asyncWalkList_spec cs (some j) true (idx + 1)
              { st with awaited := st.awaited ++ [j] }
              (fun p hp => Nat.lt_succ_of_lt (hbound p hp))
              (by
                intro j' hj'
                injection hj' with hj'
                subst hj'
                exact ⟨hany, Nat.lt_succ_of_lt hjlt⟩)]
            refine congrArg₂ Prod.mk ?_ (by omega)
            simp [List.append_assoc]
      all_goals
        show asyncWalkList cs ctx (idx + 1) st =
          ({ funcs := st.funcs ++ asyncFuncsOfList cs (idx + 1),
             awaited := st.awaited ++
               codeAwaitedOfList cs ctx ctxAsync (idx + 1) },
           idx + (forestSize cs + 1))
      all_goals
        rw [asyncWalkList_spec cs ctx ctxAsync (idx + 1) st
          (fun p hp => Nat.lt_succ_of_lt (hbound p hp))
          (by
            intro j hj
            obtain ⟨h1, h2⟩ := hctx j hj
            exact ⟨h1, Nat.lt_succ_of_lt h2⟩)]
      all_goals
        refine congrArg₂ Prod.mk rfl (by omega)

/-- `asyncWalk_spec` for forests of consecutive siblings. -/
theorem asyncWalkList_spec : ∀ (ns : List Node) (ctx : Option Nat)
    (ctxAsync : Bool) (idx : Nat) (st : AsyncState),
    (∀ p ∈ st.funcs, p.1 < idx) →
    (∀ j, ctx = some j → st.funcs.any (fun p => p.1 == j) = ctxAsync ∧ j < idx) →
    asyncWalkList ns ctx idx st =
      ({ funcs := st.funcs ++ asyncFuncsOfList ns idx,
         awaited := st.awaited ++ codeAwaitedOfList ns ctx ctxAsync idx },
       idx + forestSize ns)
  | [], ctx, ctxAsync, idx, st => by
      intro hbound hctx
      show (st, idx) = _
      have h1 : asyncFuncsOfList [] idx = [] := rfl
      have h2 : codeAwaitedOfList [] ctx ctxAsync idx = [] := rfl
      have h3 : forestSize ([] : List Node) = 0 := rfl
      rw [h1, h2, h3]
      simp
  | c :: cs, ctx, ctxAsync, idx, st => by
      intro hbound hctx
      show asyncWalkList cs ctx (asyncWalk c ctx idx st).2 (asyncWalk c ctx idx st).1 = _
      rw [asyncWalk_spec c ctx ctxAsync idx st hbound hctx]
      rw [asyncWalkList_spec cs ctx ctxAsync (idx + treeSize c)
        { funcs := st.funcs ++ asyncFuncsOf c idx,
          awaited := st.awaited ++ codeAwaitedOf c ctx ctxAsync idx }
        (by
          intro p hp
          rcases List.mem_append.mp hp with h | h
          · exact Nat.lt_of_lt_of_le (hbound p h)
              (Nat.le_add_right idx (treeSize c))
          · exact (asyncFuncsOf_bounds c idx p h).2)
        (by
          intro j hj
          obtain ⟨h1, h2⟩ := hctx j hj
          refine ⟨?_, Nat.lt_of_lt_of_le h2 (Nat.le_add_right idx (treeSize c))⟩
          rw [List.any_append, h1]
          have : (asyncFuncsOf c idx).any (fun p => p.1 == j) = false := by
            apply List.any_eq_false.mpr
            intro p hp
            simp only [beq_iff_eq]
            have := (asyncFuncsOf_bounds c idx p hp).1
            omega
          rw [this]
          simp)]
      have hf : asyncFuncsOfList (c :: cs) idx
          = asyncFuncsOf c idx ++ asyncFuncsOfList cs (idx + treeSize c) := rfl
      have ha : codeAwaitedOfList (c :: cs) ctx ctxAsync idx
          = codeAwaitedOf c ctx ctxAsync idx
              ++ codeAwaitedOfList cs ctx ctxAsync (idx + treeSize c) := rfl
      rw [hf, ha, forestSize_cons]
      simp [List.append_assoc, Nat.add_assoc]
end

/-- Relation between the traversal contexts: `ctx` is the nearest
enclosing function with asyncness `ctxAsync`, `fnAsync` mirrors that
asyncness (`none` when outside every function), and `actx` is the
nearest enclosing async function whenever the nearest function itself is
async. -/
def OwnerRel (ctx : Option Nat) (ctxAsync : Bool) (actx : Option Nat)
    (fnAsync : Option Bool) : Prop :=
  match ctx, fnAsync with
  | none, none => ctxAsync = false
  | some j, some b => ctxAsync = b ∧ (b = true → actx = some j)
  | _, _ => False

mutual
/-- On await-well-formed trees, the owners the code records coincide
with the spec's nearest-enclosing-async-function owners. -/
theorem codeAwaited_eq_asyncOwners : ∀ (n : Node) (ctx : Option Nat)
    (ctxAsync : Bool) (actx : Option Nat) (fnAsync : Option Bool) (idx : Nat),
    OwnerRel ctx ctxAsync actx fnAsync →
    awaitsWF n fnAsync = true →
    codeAwaitedOf n ctx ctxAsync idx = asyncOwnersOf n actx idx
  | .mk k l cs, ctx, ctxAsync, actx, fnAsync, idx => by
      intro hrel hwf
      rcases k with _ | ⟨fk, b⟩ | _ | d | ⟨nm, rf⟩ | _
      case function =>
        have hwf' : awaitsWFList cs (some b) = true := by
          have h : ((true : Bool) && awaitsWFList cs (some b)) = true := hwf
          simpa using h
        rcases b with _ | _
        · show codeAwaitedOfList cs (some idx) false (idx + 1)
            = asyncOwnersOfList cs actx (idx + 1)
          exact codeAwaited_eq_asyncOwnersList cs (some idx) false actx (some false)
            (idx + 1) ⟨rfl, fun h => nomatch h⟩ hwf'
        · show codeAwaitedOfList cs (some idx) true (idx + 1)
            = asyncOwnersOfList cs (some idx) (idx + 1)
          exact codeAwaited_eq_asyncOwnersList cs (some idx) true (some idx) (some true)
            (idx + 1) ⟨rfl, fun _ => rfl⟩ hwf'
      case awaitExpression =>
        have h : ((fnAsync == some true) && awaitsWFList cs fnAsync) = true := hwf
        have h12 : (fnAsync == some true) = true ∧ awaitsWFList cs fnAsync = true := by
          simpa using h
        obtain ⟨h1, h2⟩ := h12
        have hfa : fnAsync = some true := eq_of_beq h1
        subst hfa
        rcases ctx with _ | j
        · exact hrel.elim
        · obtain ⟨hca, hactx⟩ := hrel
          subst hca
          rw [hactx rfl]
          show [j] ++ codeAwaitedOfList cs (some j) true (idx + 1)
            = [j] ++ asyncOwnersOfList cs (some j) (idx + 1)
          rw [codeAwaited_eq_asyncOwnersList cs (some j) true (some j) (some true)
            (idx + 1) ⟨rfl, fun _ => rfl⟩ h2]
      all_goals
        have hwf' : awaitsWFList cs fnAsync = true := by
          have h : ((true : Bool) && awaitsWFList cs fnAsync) = true := hwf
          simpa using h
      case program =>
        show codeAwaitedOfList cs ctx ctxAsync (idx + 1)
          = asyncOwnersOfList cs actx (idx + 1)
        exact codeAwaited_eq_asyncOwnersList cs ctx ctxAsync actx fnAsync
          (idx + 1) hrel hwf'
      case variableDeclarator =>
        show codeAwaitedOfList cs ctx ctxAsync (idx + 1)
          = asyncOwnersOfList cs actx (idx + 1)
        exact codeAwaited_eq_asyncOwnersList cs ctx ctxAsync actx fnAsync
          (idx + 1) hrel hwf'
      case identifier =>
        show codeAwaitedOfList cs ctx ctxAsync (idx + 1)
          = asyncOwnersOfList cs actx (idx + 1)
        exact codeAwaited_eq_asyncOwnersList cs ctx ctxAsync actx fnAsync
          (idx + 1) hrel hwf'
      case other =>
        show codeAwaitedOfList cs ctx ctxAsync (idx + 1)
          = asyncOwnersOfList cs actx (idx + 1)
        exact codeAwaited_eq_asyncOwnersList cs ctx ctxAsync actx fnAsync
          (idx + 1) hrel hwf'

/-- `codeAwaited_eq_asyncOwners` for forests of consecutive siblings. -/
theorem codeAwaited_eq_asyncOwnersList : ∀ (ns : List Node) (ctx : Option Nat)
    (ctxAsync : Bool) (actx : Option Nat) (fnAsync : Option Bool) (idx : Nat),
    OwnerRel ctx ctxAsync actx fnAsync →
    awaitsWFList ns fnAsync = true →
    codeAwaitedOfList ns ctx ctxAsync idx = asyncOwnersOfList ns actx idx
  | [], _, _, _, _, _ => by
      intro _ _
      rfl
  | c :: cs, ctx, ctxAsync, actx, fnAsync, idx => by
      intro hrel hwf
      have h : (awaitsWF c fnAsync && awaitsWFList cs fnAsync) = true := hwf
      have h12 : awaitsWF c fnAsync = true ∧ awaitsWFList cs fnAsync = true := by
        simpa using h
      obtain ⟨h1, h2⟩ := h12
      show codeAwaitedOf c ctx ctxAsync idx
            ++ codeAwaitedOfList cs ctx ctxAsync (idx + treeSize c)
          = asyncOwnersOf c actx idx
            ++ asyncOwnersOfList cs actx (idx + treeSize c)
      rw [codeAwaited_eq_asyncOwners c ctx ctxAsync actx fnAsync idx hrel h1,
        codeAwaited_eq_asyncOwnersList cs ctx ctxAsync actx fnAsync
          (idx + treeSize c) hrel h2]
end

/-- On an await-well-formed tree the flagged entries are exactly the
async functions none of whose awaits has it as nearest enclosing async
function. -/
theorem asyncCore_spec (t : Node) (hwf : awaitsWF t none = true) :
    asyncCore t = (asyncFuncsOf t 0).filter
      (fun p => !((asyncOwnersOf t none 0).contains p.1)) := by
  unfold asyncCore
  rw [asyncWalk_spec t none false 0 ⟨[], []⟩
    (by intro p hp; cases hp)
    (by intro j hj; cases hj)]
  rw [codeAwaited_eq_asyncOwners t none false none none 0 rfl hwf]
  simp

/-- One-step unfolding of `asyncWalkList` at nil. -/
theorem asyncWalkList_nil (ctx : Option Nat) (idx : Nat) (st : AsyncState) :
    asyncWalkList [] ctx idx st = (st, idx) := rfl

/-- One-step unfolding of `asyncWalkList` at a cons. -/
theorem asyncWalkList_cons (c : Node) (cs : List Node) (ctx : Option Nat)
    (idx : Nat) (st : AsyncState) :
    asyncWalkList (c :: cs) ctx idx st =
      asyncWalkList cs ctx (asyncWalk c ctx idx st).2 (asyncWalk c ctx idx st).1 := rfl

/-- C3, amended: on every await-well-formed tree (each `await`'s nearest
enclosing function is async — true of awaits in async function bodies,
though not of every parseable tree), the rule attributes each await to
its nearest enclosing asynchronous function and after the full traversal
emits exactly one Finding per async function whose flag stayed false,
anchored at the function's full range; on `async function f(){ return 1; }`
exactly one Finding for `f`, on `async function g(){ await h(); }` zero
Findings.  Outside this condition the code does not skip over non-async
functions to find the async owner (see the counterexample theorem below),
so the amended claim restricts the original to await-well-formed trees. -/
theorem asyncWithoutAwait_nearest_owner :
    (∀ (gen : Nat → String) (t : Node), awaitsWF t none = true →
      asyncWithoutAwaitRun gen t = stampIds gen
        (((asyncFuncsOf t 0).filter fun p =>
            !((asyncOwnersOf t none 0).contains p.1)).map
          fun p => createResult "async-without-await" .warning .potentialIssue
            (asyncWithoutAwaitMessage p.2) p.2.loc
            (some "Consider making this function synchronous or add await expressions") ""))
    ∧ (∀ gen : Nat → String, asyncWithoutAwaitRun gen exampleAsyncF =
        [{ id := "async-without-await" ++ "-" ++ gen 0
           message := "Async function 'f' contains no await expressions"
           severity := .warning
           category := .potentialIssue
           range := { start := { line := 0, character := 0 }
                      stop := { line := 0, character := 30 } }
           ruleId := "async-without-await"
           suggestion := some "Consider making this function synchronous or add await expressions" }])
    ∧ (∀ gen : Nat → String, asyncWithoutAwaitRun gen exampleAsyncG = []) := by
  refine ⟨?_, ?_, ?_⟩
  · intro gen t hwf
    unfold asyncWithoutAwaitRun
    rw [asyncCore_spec t hwf]
  · intro gen
    simp [asyncWithoutAwaitRun, asyncCore, exampleAsyncF, asyncWalk_step,
      asyncWalkList_cons, asyncWalkList_nil, stampIds, NodeKind.isFunction,
      createResult, asyncWithoutAwaitMessage, getFunctionName, Node.funcKind,
      Node.loc, nodeToRange]
  · intro gen
    simp [asyncWithoutAwaitRun, asyncCore, exampleAsyncG, asyncWalk_step,
      asyncWalkList_cons, asyncWalkList_nil, stampIds, NodeKind.isFunction]

/-- Witness for C3 at the concrete example tree of `f`. -/
theorem asyncWithoutAwait_nearest_owner_witness :
    awaitsWF exampleAsyncF none = true ∧
    asyncWithoutAwaitRun genStub exampleAsyncF = stampIds genStub
      (((asyncFuncsOf exampleAsyncF 0).filter fun p =>
          !((asyncOwnersOf exampleAsyncF none 0).contains p.1)).map
        fun p => createResult "async-without-await" .warning .potentialIssue
          (asyncWithoutAwaitMessage p.2) p.2.loc
          (some "Consider making this function synchronous or add await expressions") "") :=
  ⟨by decide, asyncWithoutAwait_nearest_owner.1 genStub exampleAsyncF (by decide)⟩

/-- Parse tree of `async function f(){ return { [await x]() {} } }`: an
async function declaration `f` returning an object literal whose method
has the computed key `[await x]`.  The `AwaitExpression` is a child of
the non-async `ObjectMethod` node, so its `getFunctionParent()` is that
method, while its nearest enclosing *async* function is `f`. -/
def exampleAsyncComputedKey : Node :=
  .mk .program (some ⟨1, 0, 1, 47⟩)
    [.mk (.function (.functionDeclaration (some "f")) true) (some ⟨1, 0, 1, 47⟩)
      [.mk (.identifier "f" false) (some ⟨1, 15, 1, 16⟩) [],
       .mk .other (some ⟨1, 18, 1, 47⟩)
         [.mk .other (some ⟨1, 20, 1, 45⟩)
           [.mk .other (some ⟨1, 27, 1, 45⟩)
             [.mk (.function .otherFunction false) (some ⟨1, 29, 1, 43⟩)
               [.mk .awaitExpression (some ⟨1, 30, 1, 37⟩)
                 [.mk (.identifier "x" true) (some ⟨1, 36, 1, 37⟩) []],
                .mk .other (some ⟨1, 41, 1, 43⟩) []]]]]]]

/-- Forest size of the empty forest. -/
theorem forestSize_nil : forestSize ([] : List Node) = 0 := rfl

/-- One-step unfolding of `asyncFuncsOfList` at nil. -/
theorem asyncFuncsOfList_nil (idx : Nat) : asyncFuncsOfList [] idx = [] := rfl

/-- One-step unfolding of `asyncFuncsOfList` at a cons. -/
theorem asyncFuncsOfList_cons (c : Node) (cs : List Node) (idx : Nat) :
    asyncFuncsOfList (c :: cs) idx =
      asyncFuncsOf c idx ++ asyncFuncsOfList cs (idx + treeSize c) := rfl

/-- One-step unfolding of `asyncOwnersOf` at a destructured node. -/
theorem asyncOwnersOf_mk (k : NodeKind) (l : Option Loc) (cs : List Node)
    (actx : Option Nat) (idx : Nat) :
    asyncOwnersOf (.mk k l cs) actx idx =
      (match k with
        | .awaitExpression => actx.toList
        | _ => []) ++
      asyncOwnersOfList cs
        (match k with
          | .function _ true => some idx
          | _ => actx)
        (idx + 1) := by
  rcases k with _ | ⟨fk, b⟩ | _ | d | ⟨nm, rf⟩ | _ <;>
    first
      | rfl
      | (rcases b with _ | _ <;> rfl)

/-- One-step unfolding of `asyncOwnersOfList` at nil. -/
theorem asyncOwnersOfList_nil (actx : Option Nat) (idx : Nat) :
    asyncOwnersOfList [] actx idx = [] := rfl

/-- One-step unfolding of `asyncOwnersOfList` at a cons. -/
theorem asyncOwnersOfList_cons (c : Node) (cs : List Node) (actx : Option Nat)
    (idx : Nat) :
    asyncOwnersOfList (c :: cs) actx idx =
      asyncOwnersOf c actx idx ++ asyncOwnersOfList cs actx (idx + treeSize c) := rfl

/-- Counterexample to C3 as originally stated: on the Babel-parseable
program `async function f(){ return { [await x]() {} } }` the code emits
exactly one Finding, flagging `f` — yet the await's nearest enclosing
async function (index 1, which is `f`, the only async function of the
tree) owns the await once non-async functions are skipped, so the
claimed nearest-async attribution prescribes zero Findings.  The code
reads `getFunctionParent()` once — here the non-async object method —
and checks it against the registered async map instead of skipping
upward, leaving `f`'s flag false.  The final conjunct records that this
tree falsifies the await-well-formedness the amended claim assumes. -/
theorem asyncWithoutAwait_nearest_owner_counterexample :
    asyncWithoutAwaitRun genStub exampleAsyncComputedKey =
      [{ id := "async-without-await" ++ "-" ++ genStub 0
         message := "Async function 'f' contains no await expressions"
         severity := .warning
         category := .potentialIssue
         range := { start := { line := 0, character := 0 }
                    stop := { line := 0, character := 47 } }
         ruleId := "async-without-await"
         suggestion := some "Consider making this function synchronous or add await expressions" }]
    ∧ asyncOwnersOf exampleAsyncComputedKey none 0 = [1]
    ∧ (asyncFuncsOf exampleAsyncComputedKey 0).map Prod.fst = [1]
    ∧ stampIds genStub
        (((asyncFuncsOf exampleAsyncComputedKey 0).filter fun p =>
            !((asyncOwnersOf exampleAsyncComputedKey none 0).contains p.1)).map
          fun p => createResult "async-without-await" .warning .potentialIssue
            (asyncWithoutAwaitMessage p.2) p.2.loc
            (some "Consider making this function synchronous or add await expressions") "")
      = []
    ∧ awaitsWF exampleAsyncComputedKey none = false := by
  refine ⟨?_, ?_, ?_, ?_, ?_⟩
  · simp [asyncWithoutAwaitRun, asyncCore, exampleAsyncComputedKey, asyncWalk_step,
      asyncWalkList_cons, asyncWalkList_nil, stampIds, NodeKind.isFunction,
      createResult, asyncWithoutAwaitMessage, getFunctionName, Node.funcKind,
      Node.loc, nodeToRange]
  · simp [exampleAsyncComputedKey, asyncOwnersOf_mk, asyncOwnersOfList_cons,
      asyncOwnersOfList_nil, treeSize_mk, forestSize_cons, forestSize_nil]
  · simp [exampleAsyncComputedKey, asyncFuncsOf_mk, asyncFuncsOfList_cons,
      asyncFuncsOfList_nil, treeSize_mk, forestSize_cons, forestSize_nil]
  · simp [exampleAsyncComputedKey, asyncFuncsOf_mk, asyncFuncsOfList_cons,
      asyncFuncsOfList_nil, asyncOwnersOf_mk, asyncOwnersOfList_cons,
      asyncOwnersOfList_nil, treeSize_mk, forestSize_cons, forestSize_nil,
      stampIds]
  · decide

/-! ## C10 — range invariant -/

/-- Lexicographic order on positions: `p` before-or-at `q`. -/
def posLe (p q : Position) : Bool :=
  p.line < q.line || (p.line == q.line && p.character ≤ q.character)

/-- A `loc` is well-formed when its start does not come after its end
(lexicographically) — Babel guarantees this for every node it
produces. -/
def locWF : Option Loc → Bool
  | none => true
  | some l =>
      l.startLine < l.endLine ||
        (l.startLine == l.endLine && l.startCol ≤ l.endCol)

/-- Per-node loc well-formedness: the node's own `loc` and, for a
declarator, the recorded id `loc`. -/
def nodeLocsWF (n : Node) : Bool :=
  locWF n.loc &&
    (match n.kind with
      | .variableDeclarator (some (_, idLoc)) => locWF idLoc
      | _ => true)

/-- All locs in the tree are well-formed. -/
def treeLocsWF (t : Node) : Bool :=
  (preorder t).all nodeLocsWF

/-- `nodeToRange` of a well-formed loc is a well-formed range. -/
theorem posLe_nodeToRange {l : Option Loc} (h : locWF l = true) :
    posLe (nodeToRange l).start (nodeToRange l).stop = true := by
  cases l with
  | none => rfl
  | some l =>
      simp only [locWF, Bool.or_eq_true, Bool.and_eq_true, beq_iff_eq,
        decide_eq_true_eq] at h
      simp only [nodeToRange, posLe, Bool.or_eq_true, Bool.and_eq_true,
        beq_iff_eq, decide_eq_true_eq]
      omega

/-- Stamping ids preserves the `range` of every finding, positionally. -/
theorem stampIds_map_range (gen : Nat → String) (rs : List AnalysisResult) :
    (stampIds gen rs).map AnalysisResult.range = rs.map AnalysisResult.range := by
  unfold stampIds
  rw [List.map_map]
  have h : (AnalysisResult.range ∘ fun p : Nat × AnalysisResult =>
      { p.2 with id := p.2.ruleId ++ "-" ++ gen p.1 })
      = (AnalysisResult.range ∘ Prod.snd) := by
    funext p
    rfl
  rw [h, ← List.map_map, List.enum_map_snd]

/-- The range of any finding of a stamped list is the range of a source
finding. -/
theorem mem_range_stampIds {gen : Nat → String} {rs : List AnalysisResult}
    {r : AnalysisResult} (h : r ∈ stampIds gen rs) :
    ∃ r' ∈ rs, r.range = r'.range := by
  have : r.range ∈ (stampIds gen rs).map AnalysisResult.range :=
    List.mem_map_of_mem _ h
  rw [stampIds_map_range] at this
  obtain ⟨r', hr', hrr⟩ := List.mem_map.mp this
  exact ⟨r', hr', hrr.symm⟩

/-- Provenance of the unused-variable entries: each flagged pair is the
`declId` of a declarator node of the tree. -/
theorem unusedCore_prov (t : Node) :
    ∀ p ∈ unusedCore t, ∃ n ∈ preorder t, n.kind = .variableDeclarator (some p) := by
  intro p hp
  unfold unusedCore at hp
  have hpm := List.mem_of_mem_filter hp
  rcases declaredVars_prov (preorder t) ⟨[], []⟩ p hpm with h | h
  · simp at h
  · exact h

/-- A well-formed tree yields well-formed long-function ranges. -/
theorem longFunctionRun_rangeWF (gen : Nat → String) (t : Node)
    (hwf : treeLocsWF t = true) :
    ∀ r ∈ longFunctionRun gen t, posLe r.range.start r.range.stop = true := by
  intro r hr
  obtain ⟨r', hr', hrr⟩ := mem_range_stampIds hr
  obtain ⟨n, hn, hcr⟩ := List.mem_map.mp hr'
  have hnt : n ∈ preorder t := List.mem_of_mem_filter hn
  have h : locWF n.loc = true ∧
      (match n.kind with
        | .variableDeclarator (some (_, idLoc)) => locWF idLoc
        | _ => true) = true := by
    simpa [nodeLocsWF] using List.all_eq_true.mp hwf n hnt
  rw [hrr, ← hcr]
  exact posLe_nodeToRange h.1

/-- A well-formed tree yields well-formed unused-variable ranges. -/
theorem unusedVariableRun_rangeWF (gen : Nat → String) (t : Node)
    (hwf : treeLocsWF t = true) :
    ∀ r ∈ unusedVariableRun gen t, posLe r.range.start r.range.stop = true := by
  intro r hr
  obtain ⟨r', hr', hrr⟩ := mem_range_stampIds hr
  obtain ⟨p, hp, hcr⟩ := List.mem_map.mp hr'
  obtain ⟨n, hn, hk⟩ := unusedCore_prov t p hp
  obtain ⟨pname, ploc⟩ := p
  have h : locWF n.loc = true ∧
      (match n.kind with
        | .variableDeclarator (some (_, idLoc)) => locWF idLoc
        | _ => true) = true := by
    simpa [nodeLocsWF] using List.all_eq_true.mp hwf n hn
  have h2 := h.2
  rw [hk] at h2
  rw [hrr, ← hcr]
  exact posLe_nodeToRange h2

mutual
/-- Every async-function entry's node belongs to the tree. -/
theorem asyncFuncsOf_mem : ∀ (n : Node) (idx : Nat) (p : Nat × Node),
    p ∈ asyncFuncsOf n idx → p.2 ∈ preorder n
  | .mk k l cs, idx, p => by
      intro hp
      rw [asyncFuncsOf_mk] at hp
      rw [show preorder (.mk k l cs) = .mk k l cs :: preorderList cs from rfl]
      rcases List.mem_append.mp hp with h | h
      · rcases k with _ | ⟨fk, b⟩ | _ | d | ⟨nm, rf⟩ | _ <;>
          first
            | simp at h
            | (rcases b with _ | _
               · simp at h
               · rw [List.mem_singleton.mp h]
                 exact List.mem_cons_self _ _)
      · exact List.mem_cons_of_mem _ (asyncFuncsOfList_mem cs (idx + 1) p h)

/-- `asyncFuncsOf_mem` for forests. -/
theorem asyncFuncsOfList_mem : ∀ (ns : List Node) (idx : Nat) (p : Nat × Node),
    p ∈ asyncFuncsOfList ns idx → p.2 ∈ preorderList ns
  | [], idx, p => by
      intro h
      exact absurd h (List.not_mem_nil p)
  | c :: cs, idx, p => by
      intro h
      rw [show preorderList (c :: cs) = preorder c ++ preorderList cs from rfl]
      rcases List.mem_append.mp h with h | h
      · exact List.mem_append_left _ (asyncFuncsOf_mem c idx p h)
      · exact List.mem_append_right _ (asyncFuncsOfList_mem cs (idx + treeSize c) p h)
end

/-- The flagged async functions are nodes of the tree. -/
theorem asyncCore_mem (t : Node) : ∀ p ∈ asyncCore t, p.2 ∈ preorder t := by
  intro p hp
  unfold asyncCore at hp
  have hpm := List.mem_of_mem_filter hp
  rw [asyncWalk_spec t none false 0 ⟨[], []⟩
    (by intro q hq; cases hq)
    (by intro j hj; cases hj)] at hpm
  simp only [List.nil_append] at hpm
  exact asyncFuncsOf_mem t 0 p hpm

/-- A well-formed tree yields well-formed async-without-await ranges. -/
theorem asyncWithoutAwaitRun_rangeWF (gen : Nat → String) (t : Node)
    (hwf : treeLocsWF t = true) :
    ∀ r ∈ asyncWithoutAwaitRun gen t, posLe r.range.start r.range.stop = true := by
  intro r hr
  obtain ⟨r', hr', hrr⟩ := mem_range_stampIds hr
  obtain ⟨p, hp, hcr⟩ := List.mem_map.mp hr'
  have hn : p.2 ∈ preorder t := asyncCore_mem t p hp
  have h : locWF p.2.loc = true ∧
      (match p.2.kind with
        | .variableDeclarator (some (_, idLoc)) => locWF idLoc
        | _ => true) = true := by
    simpa [nodeLocsWF] using List.all_eq_true.mp hwf p.2 hn
  rw [hrr, ← hcr]
  exact posLe_nodeToRange h.1

/-- Every finding of `baseRuleAnalyze` comes from the visitor run on the
tree the parser returned. -/
theorem mem_baseRuleAnalyze_parse
    {babelParse : String → List String → Except String Node}
    {run : Node → List AnalysisResult} {code filePath : String}
    {r : AnalysisResult}
    (h : r ∈ baseRuleAnalyze babelParse run code filePath) :
    ∃ ast, parseCode babelParse code (getLanguageFromPath filePath) = some ast
      ∧ r ∈ run ast := by
  unfold baseRuleAnalyze at h
  cases hp : parseCode babelParse code (getLanguageFromPath filePath) with
  | none => rw [hp] at h; simp at h
  | some ast => rw [hp] at h; exact ⟨ast, rfl, h⟩

/-- C10: every Finding the system ever produces satisfies the range
invariant `start <= end` (lexicographically): findings of the tree-based
rules (anchored via `nodeToRange` at nodes of the parse tree, whose locs
Babel produces well-formed), converted secondary-language digest issues,
and the synthetic failure findings. -/
theorem finding_range_start_le_end :
    (∀ (babelParse : String → List String → Except String Node)
      (gen : Nat → String) (code filePath : String)
      (options : AnalyzerOptions) (now : Int),
      (∀ ast, parseCode babelParse code (getLanguageFromPath filePath) = some ast →
        treeLocsWF ast = true) →
      ∀ r ∈ (analyzeFileJS babelParse gen code filePath options now).results,
        posLe r.range.start r.range.stop = true)
    ∧ (∀ issue : PythonIssue,
        posLe (convertPythonIssue issue).range.start
          (convertPythonIssue issue).range.stop = true)
    ∧ (∀ (outcome : PythonRunOutcome) (filePath : String) (now : Int),
        ∀ r ∈ (pythonAnalyzeFile outcome filePath now).results,
          posLe r.range.start r.range.stop = true) := by
  refine ⟨?_, ?_, ?_⟩
  · intro babelParse gen code filePath options now hwf r hr
    simp only [analyzeFileJS, analyzeFile, List.mem_flatMap] at hr
    obtain ⟨rule, hrule, hrr⟩ := hr
    have hmem := List.mem_of_mem_filter hrule
    simp only [jsRules, List.mem_cons, List.not_mem_nil, or_false] at hmem
    rcases hmem with h1 | h2 | h3
    · subst h1
      simp only [unusedVariableRule] at hrr
      obtain ⟨ast, hast, hm⟩ := mem_baseRuleAnalyze_parse hrr
      exact unusedVariableRun_rangeWF gen ast (hwf ast hast) r hm
    · subst h2
      simp only [asyncWithoutAwaitRule] at hrr
      obtain ⟨ast, hast, hm⟩ := mem_baseRuleAnalyze_parse hrr
      exact asyncWithoutAwaitRun_rangeWF gen ast (hwf ast hast) r hm
    · subst h3
      simp only [longFunctionRule] at hrr
      obtain ⟨ast, hast, hm⟩ := mem_baseRuleAnalyze_parse hrr
      exact longFunctionRun_rangeWF gen ast (hwf ast hast) r hm
  · intro issue
    simp only [convertPythonIssue, posLe]
    simp
  · intro outcome filePath now r hr
    cases outcome with
    | error e =>
        simp only [pythonAnalyzeFile, List.mem_singleton] at hr
        subst hr
        rfl
    | ok pr =>
        cases hb : pr.success with
        | false =>
            have hrep : pythonAnalyzeFile (Except.ok pr) filePath now =
                { filePath := filePath
                  language := "python"
                  results :=
                    [{ id := "syntax_error"
                       message := jsStringOr pr.message "Failed to parse Python file"
                       severity := .error
                       category := .potentialIssue
                       range := { start := { line := 1, character := 0 }
                                  stop := { line := 1, character := 0 } }
                       ruleId := "syntax_error"
                       suggestion := none }]
                  timestamp := now } := by
              simp [pythonAnalyzeFile, hb]
            rw [hrep] at hr
            simp only [List.mem_singleton] at hr
            subst hr
            rfl
        | true =>
            have hrep : pythonAnalyzeFile (Except.ok pr) filePath now =
                { filePath := filePath
                  language := "python"
                  results := (pr.issues.getD []).map convertPythonIssue
                  timestamp := now } := by
              simp [pythonAnalyzeFile, hb]
            rw [hrep] at hr
            simp only [List.mem_map] at hr
            obtain ⟨issue, _, hconv⟩ := hr
            rw [← hconv]
            simp only [convertPythonIssue, posLe]
            simp

/-- Witness for C10 on a concrete engine run. -/
theorem finding_range_start_le_end_witness :
    posLe unusedFinding.range.start unusedFinding.range.stop = true :=
  finding_range_start_le_end.1 parseStubUnused genStub "" "a.js"
    ⟨["unused-variable"], "javascript"⟩ 0
    (by
      intro ast hast
      have h : exampleUnused = ast := by
        simpa [parseCode, parseStubUnused] using hast
      rw [← h]
      decide)
    unusedFinding (by decide)
